import Mathlib

/-!
Verification of the diff/patch processing and response-reconciliation engine
of the ai-pr-reviewer repository (src/review.ts) against its specification.

Strings of the TypeScript source are modelled as `List Char`; JavaScript
regular expressions are modelled by executable matchers that follow the
engine's leftmost-match semantics for the concrete patterns the source uses.
Line numbers are modelled as `Int` (JavaScript numbers holding integer
values, with `-1` used as a sentinel by the source).
-/

namespace AiPr

/-- The set of characters matched by JavaScript `\s` (and trimmed by
`String.prototype.trim`). -/
def isJsSpace (c : Char) : Bool :=
  c == ' ' || c == '\t' || c == '\n' || c == '\r' || c == '\x0b' || c == '\x0c' ||
  c == '\u00a0' || c == '\u1680' || c == '\u2000' || c == '\u2001' || c == '\u2002' ||
  c == '\u2003' || c == '\u2004' || c == '\u2005' || c == '\u2006' || c == '\u2007' ||
  c == '\u2008' || c == '\u2009' || c == '\u200a' || c == '\u2028' || c == '\u2029' ||
  c == '\u202f' || c == '\u205f' || c == '\u3000' || c == '\ufeff'

/-- Numeric value of a digit string, as JavaScript `parseInt(s, 10)` computes
it on a string of decimal digits. -/
def valOfDigits (l : List Char) : Nat :=
  l.foldl (fun a c => a * 10 + (c.toNat - 48)) 0

/-- Decimal rendering of an integer, as JavaScript template interpolation
renders an integral number. -/
def intChars (i : Int) : List Char :=
  if i < 0 then '-' :: Nat.toDigits 10 (-i).toNat else Nat.toDigits 10 i.toNat

/-- JavaScript `String.prototype.split('\n')`: the final empty segment is
kept, and the empty string yields one empty segment. -/
def splitOnNl : List Char → List (List Char)
  | [] => [[]]
  | c :: rest =>
    if c = '\n' then [] :: splitOnNl rest
    else
      match splitOnNl rest with
      | [] => [[c]]
      | l :: ls => (c :: l) :: ls

/-- `Array.prototype.join('\n')` on a list of lines. -/
def joinNl (ls : List (List Char)) : List Char :=
  List.intercalate ['\n'] ls

/-- JavaScript `String.prototype.trim()`. -/
def jsTrim (l : List Char) : List Char :=
  ((l.dropWhile isJsSpace).reverse.dropWhile isJsSpace).reverse

/-- A line starts with `-` (JavaScript `line.startsWith('-')`). -/
def startsWithDash : List Char → Bool
  | c :: _ => c == '-'
  | [] => false

/-- A line starts with `+` (JavaScript `line.startsWith('+')`). -/
def startsWithPlus : List Char → Bool
  | c :: _ => c == '+'
  | [] => false

/-! ## splitPatch (src/review.ts lines 556-578)

The hunk-header pattern `^@@ -(\d+),(\d+) \+(\d+),(\d+) @@` (multiline)
matches at a line start; `splitPatch` collects the match indices and slices
the patch text between consecutive ones. -/

/-- Attempt the hunk-header pattern `@@ -(\d+),(\d+) \+(\d+),(\d+) @@` at the
head of `l`; on success return the four captured numbers.  The pattern is
deterministic: each `\d+` is a maximal digit run because the character
required after it is not a digit. -/
def tryHunkHeader (l : List Char) : Option (Nat × Nat × Nat × Nat) :=
  match l with
  | '@' :: '@' :: ' ' :: '-' :: r0 =>
    match r0.span Char.isDigit with
    | (d1, ',' :: r2) =>
      if d1.isEmpty then none else
      match r2.span Char.isDigit with
      | (d2, ' ' :: '+' :: r4) =>
        if d2.isEmpty then none else
        match r4.span Char.isDigit with
        | (d3, ',' :: r6) =>
          if d3.isEmpty then none else
          match r6.span Char.isDigit with
          | (d4, ' ' :: '@' :: '@' :: _) =>
            if d4.isEmpty then none
            else some (valOfDigits d1, valOfDigits d2, valOfDigits d3, valOfDigits d4)
          | _ => none
        | _ => none
      | _ => none
    | _ => none
  | _ => none

/-- Positions (character indices) of every line start where the hunk-header
pattern matches; `atStart` records whether the current position is a line
start (start of text or just after a newline). -/
def findHeaderStarts : Bool → Nat → List Char → List Nat
  | _, _, [] => []
  | atStart, pos, c :: rest =>
    if atStart && (tryHunkHeader (c :: rest)).isSome then
      pos :: findHeaderStarts (c == '\n') (pos + 1) rest
    else
      findHeaderStarts (c == '\n') (pos + 1) rest

/-- Slice `patch` between consecutive header start indices; the final header
runs to the end of the text (`patch.substring(last)`). -/
def segsFrom (patch : List Char) : List Nat → List (List Char)
  | [] => []
  | [i] => [patch.drop i]
  | i :: j :: rest => (patch.drop i).take (j - i) :: segsFrom patch (j :: rest)

/-- `splitPatch` of src/review.ts: one raw hunk string per hunk-header line.
The `patch == null` guard of the source is outside this model (the input
here is always a string). -/
def splitPatch (patch : List Char) : List (List Char) :=
  segsFrom patch (findHeaderStarts true 0 patch)

/-! ## patchStartEndLine (src/review.ts lines 681-707) -/

/-- One side of a hunk's addressable range. -/
structure HunkRange where
  startLine : Int
  endLine : Int
deriving DecidableEq, Repr

/-- Both sides of a hunk's addressable range. -/
structure HunkInfo where
  oldHunk : HunkRange
  newHunk : HunkRange
deriving DecidableEq, Repr

/-- First match of the hunk-header pattern at any line start of `patch`
(the pattern is anchored by `^` with the `m` flag). -/
def findFirstHeader : Bool → List Char → Option (Nat × Nat × Nat × Nat)
  | _, [] => none
  | atStart, c :: rest =>
    match (if atStart then tryHunkHeader (c :: rest) else none) with
    | some h => some h
    | none => findFirstHeader (c == '\n') rest

/-- `patchStartEndLine` of src/review.ts: parse the first hunk header and
derive both inclusive line ranges (`end = start + len - 1`). -/
def patchStartEndLine (patch : List Char) : Option HunkInfo :=
  match findFirstHeader true patch with
  | none => none
  | some (a, b, c, d) =>
    some ⟨⟨(a : Int), (a : Int) + (b : Int) - 1⟩, ⟨(c : Int), (c : Int) + (d : Int) - 1⟩⟩

/-! ## parsePatch (src/review.ts lines 709-763) -/

/-- The body of a hunk: every line after the `@@` line, with a trailing empty
line removed (the source pops `''` when the patch ends in a newline). -/
def bodyLines (patch : List Char) : List (List Char) :=
  let ls := (splitOnNl patch).drop 1
  match ls.getLast? with
  | some [] => ls.dropLast
  | _ => ls

/-- Whether a hunk body contains no `+` line at all
(`!lines.some(line => line.startsWith('+'))`). -/
def removalOnly (ls : List (List Char)) : Bool :=
  !(ls.any startsWithPlus)

/-- A `newView` entry carrying an injected line number
(JavaScript template `` `${newLine}: ${line}` ``). -/
def numberedLine (n : Int) (l : List Char) : List Char :=
  intChars n ++ (": ").data ++ l

/-- The body walk of `parsePatch`: `ro` is the removal-only flag, `n` the
body length, `newLine` the running new-file line counter and `currentLine`
the 0-based position of the next line (the source increments a 1-based
counter at the top of the loop).  Returns `(oldHunkLines, newHunkLines)`. -/
def annotateLoop (ro : Bool) (n : Nat) : List (List Char) → Int → Nat → List (List Char) × List (List Char)
  | [], _, _ => ([], [])
  | l :: rest, newLine, currentLine =>
    let c := currentLine + 1
    if startsWithDash l then
      let p := annotateLoop ro n rest newLine c
      (l.drop 1 :: p.1, p.2)
    else if startsWithPlus l then
      let p := annotateLoop ro n rest (newLine + 1) c
      (p.1, numberedLine newLine (l.drop 1) :: p.2)
    else
      let entry := if ro || (decide (3 < c) && decide ((c : Int) ≤ (n : Int) - 3))
        then numberedLine newLine l else l
      let p := annotateLoop ro n rest (newLine + 1) c
      (l :: p.1, entry :: p.2)

/-- `parsePatch` of src/review.ts: split off the header, walk the body and
join both annotated views with newlines. -/
def parsePatch (patch : List Char) : Option (List Char × List Char) :=
  match patchStartEndLine patch with
  | none => none
  | some info =>
    let lines := bodyLines patch
    let p := annotateLoop (removalOnly lines) lines.length lines info.newHunk.startLine 0
    some (joinNl p.1, joinNl p.2)

/-! ## _sanitizeCodeBlock (src/review.ts lines 885-921)

The source repeatedly finds a fenced opener ```` ```<label> ````, the next
```` ``` ```` closer after it, strips `^ *(\d+): ` prefixes (multiline) from
the enclosed block, and continues searching after the closer; an opener with
no closer stops the loop.  The recursion consumes at least the opener and
closer per step, so a fuel of `comment.length + 1` always suffices; fuel
keeps the definition kernel-reducible. -/

/-- Leftmost occurrence of `needle`: `s = pre ++ needle ++ post` with minimal
`pre`, as JavaScript `indexOf` finds it; `none` when there is none. -/
def splitFirstAt (needle : List Char) : List Char → Option (List Char × List Char)
  | [] => none
  | c :: rest =>
    if needle.isPrefixOf (c :: rest) then some ([], (c :: rest).drop needle.length)
    else
      match splitFirstAt needle rest with
      | some (p, q) => some (c :: p, q)
      | none => none

/-- The closing fence ```` ``` ````. -/
def fenceClose : List Char := ("```").data

/-- The opening fence ```` ```<label> ````. -/
def fenceOpen (label : List Char) : List Char := fenceClose ++ label

/-- One application of the regex `/^ *(\d+): /` at the start of a line:
spaces, a non-empty digit run, a colon and a space are removed when all are
present (the whole match is replaced by the empty string). -/
def stripLineEntry (l : List Char) : List Char :=
  match (l.dropWhile (fun c => c == ' ')).span Char.isDigit with
  | (_ :: _, ':' :: ' ' :: r3) => r3
  | _ => l

/-- `codeBlock.replace(/^ *(\d+): /gm, '')`: the pattern never crosses a
newline, and `^` with the `m` flag anchors at every line start. -/
def stripLineNums (block : List Char) : List Char :=
  joinNl ((splitOnNl block).map stripLineEntry)

/-- The fenced-block loop of `_sanitizeCodeBlock`, with explicit fuel. -/
def sanitizeCBFuel (label : List Char) : Nat → List Char → List Char
  | 0, comment => comment
  | fuel + 1, comment =>
    match splitFirstAt (fenceOpen label) comment with
    | none => comment
    | some (pre, rest) =>
      match splitFirstAt fenceClose rest with
      | none => comment
      | some (block, tail) =>
        pre ++ fenceOpen label ++ stripLineNums block ++ fenceClose ++
          sanitizeCBFuel label fuel tail

/-- `_sanitizeCodeBlock` of src/review.ts. -/
def sanitizeCodeBlock (label : List Char) (comment : List Char) : List Char :=
  sanitizeCBFuel label (comment.length + 1) comment

/-- `_sanitizeResponse` of src/review.ts: sanitize ```` ```suggestion ````
blocks, then ```` ```diff ```` blocks. -/
def sanitizeResponse (c : List Char) : List Char :=
  sanitizeCodeBlock (("diff").data) (sanitizeCodeBlock (("suggestion").data) c)

/-! ## parseReview (src/review.ts lines 771-876)

The line scanner models `/(?:^|\s)(\d+)-(\d+):\s*$/` by trying, offset by
offset from the left as the regex engine does, the deterministic tail
pattern `(\d+)-(\d+):\s*$` after a `^` or `\s` boundary. -/

/-- The `-(\d+):\s*$` part of the range pattern, after the first digit run
`d1` has been consumed: a second maximal digit run, a colon, then only
whitespace to the end of the line. -/
def rangeSuffix (d1 r2 : List Char) : Option (Int × Int) :=
  match r2.span Char.isDigit with
  | ([], _) => none
  | (d2, ':' :: r4) =>
    if r4.all isJsSpace then some ((valOfDigits d1 : Int), (valOfDigits d2 : Int))
    else none
  | _ => none

/-- Attempt `(\d+)-(\d+):\s*$` at the head of `l`: both digit runs are
maximal (the character required after each is not a digit), and after the
colon only whitespace may remain. -/
def tryRangeAt (l : List Char) : Option (Int × Int) :=
  match l.span Char.isDigit with
  | ([], _) => none
  | (d1, '-' :: r2) => rangeSuffix d1 r2
  | _ => none

/-- Offsets 1, 2, … of the regex scan: at each offset the `\s` alternative
of `(?:^|\s)` must consume the character standing there. -/
def findRangeAux : List Char → Option (Int × Int)
  | [] => none
  | c :: rest =>
    match (if isJsSpace c then tryRangeAt rest else none) with
    | some v => some v
    | none => findRangeAux rest

/-- `line.match(/(?:^|\s)(\d+)-(\d+):\s*$/)` with the two captures parsed:
offset 0 may use the `^` alternative, every offset may use the `\s` one. -/
def findRange (l : List Char) : Option (Int × Int) :=
  match tryRangeAt l with
  | some v => some v
  | none => findRangeAux l

/-- One parsed review comment. -/
structure Review where
  startLine : Int
  endLine : Int
  comment : List Char
deriving DecidableEq, Repr

/-- Integer-interval intersection length used by `storeReview`
(`Math.max(0, intersectionEnd - intersectionStart + 1)`). -/
def inter (s e us ue : Int) : Int :=
  max 0 (min e ue - max s us + 1)

/-- The patch loop of `storeReview`: carries `withinPatch`,
`bestPatchStartLine`, `bestPatchEndLine` and `maxIntersection`, breaking as
soon as `withinPatch` becomes true. -/
def storeScan (s e : Int) : List (Int × Int) → Bool → Int → Int → Int → Bool × Int × Int × Int
  | [], wp, bs, be, mi => (wp, bs, be, mi)
  | (us, ue) :: rest, wp, bs, be, mi =>
    let il := inter s e us ue
    let mi' := if mi < il then il else mi
    let bs' := if mi < il then us else bs
    let be' := if mi < il then ue else be
    let wp' := if mi < il then il == e - s + 1 else wp
    if wp' then (wp', bs', be', mi')
    else storeScan s e rest wp' bs' be' mi'

/-- The note prefixed when a comment is remapped to the best-overlapping
patch. -/
def mappedNote (s e : Int) : List Char :=
  ("> Note: This review was outside of the patch, so it was mapped to the patch with the greatest overlap. Original lines [").data
  ++ intChars s ++ ['-'] ++ intChars e ++ ("]\n\n").data

/-- The note prefixed when no patch overlaps the comment at all. -/
def noPatchNote (s e : Int) : List Char :=
  ("> Note: This review was outside of the patch, but no patch was found that overlapped with it. Original lines [").data
  ++ intChars s ++ ['-'] ++ intChars e ++ ("]\n\n").data

/-- `storeReview` of src/review.ts for one flushed candidate `(s, e, cm)`:
`none` models the TypeError thrown by `patches[0][0]` when `patches` is
empty and the no-overlap branch is reached. -/
def storeReviewE (patches : List (Int × Int × List Char)) (s e : Int) (cm : List Char) :
    Option Review :=
  let t := storeScan s e (patches.map (fun p => (p.1, p.2.1))) false (-1) (-1) 0
  if t.1 then some ⟨s, e, cm⟩
  else if t.2.1 ≠ -1 ∧ t.2.2.1 ≠ -1 then some ⟨t.2.1, t.2.2.1, mappedNote s e ++ cm⟩
  else
    match patches with
    | [] => none
    | p :: _ => some ⟨p.1, p.2.1, noPatchNote s e ++ cm⟩

/-- Flush of the scanner's in-progress comment: a candidate is produced only
when both current line numbers are set. -/
def flushCand (cs ce : Option Int) (cm : List Char) : List (Int × Int × List Char) :=
  match cs, ce with
  | some s, some e => [(s, e, cm)]
  | _, _ => []

/-- The line scan of `parseReview`: a range line flushes and opens a new
comment, a line whose trim is `---` flushes and resets, any other line is
appended (with its newline) only while collecting, and the end of input
flushes.  Returns the flushed candidates in order. -/
def scanLoop : List (List Char) → Option Int → Option Int → List Char →
    List (Int × Int × List Char)
  | [], cs, ce, cm => flushCand cs ce cm
  | l :: rest, cs, ce, cm =>
    match findRange l with
    | some (s, e) => flushCand cs ce cm ++ scanLoop rest (some s) (some e) []
    | none =>
      if jsTrim l = ("---").data then flushCand cs ce cm ++ scanLoop rest none none []
      else if cs.isSome && ce.isSome then scanLoop rest cs ce (cm ++ l ++ ['\n'])
      else scanLoop rest cs ce cm

/-- `parseReview` of src/review.ts: trim and sanitize the response, split it
into lines, scan, and reconcile every flushed candidate against the known
patches in order.  `none` models the exception thrown on an empty patch
list (see `storeReviewE`). -/
def parseReviewE (response : List Char) (patches : List (Int × Int × List Char)) :
    Option (List Review) :=
  (scanLoop (splitOnNl (sanitizeResponse (jsTrim response))) none none []).mapM
    (fun c => storeReviewE patches c.1 c.2.1 c.2.2)

/-! ## The packing loops of doReview (src/review.ts lines 387-419) -/

/-- The first loop of `doReview`: count how many leading patches fit the
token budget, stopping before the first one that would push the running
total past it. -/
def patchesToPackCount {α : Type} (cost : α → Nat) (budget : Nat) : List α → Nat → Nat
  | [], _ => 0
  | p :: rest, tokens =>
    if budget < tokens + cost p then 0
    else patchesToPackCount cost budget rest (tokens + cost p) + 1

/-- The second loop of `doReview`, reduced to which patches it appends: it
breaks once `patchesPacked` reaches `patchesToPack` and otherwise appends
the next patch in order. -/
def packLoop {α : Type} : List α → Nat → Nat → List α
  | [], _, _ => []
  | p :: rest, packed, toPack =>
    if toPack ≤ packed then []
    else p :: packLoop rest (packed + 1) toPack

/-! ## getHighestReviewedCommitId (src/review.ts lines 646-679)

The wrapper in src/review.ts delegates the matching itself to the Commenter
collaborator, whose code is not among the repository's staged files. -/

/-- Modelled from the spec: `Commenter.getHighestReviewedCommitId` (the
Commenter class is not under src/).  Spec §4.5: intersect the previously
reviewed ids with the branch's commit ids preserving branch order and take
the most recent match; the caller treats the empty string as "no match". -/
def commenterGetHighestReviewedCommitId (allCommitIds reviewedCommitIds : List (List Char)) :
    List Char :=
  ((allCommitIds.filter (fun c => reviewedCommitIds.contains c)).getLast?).getD []

/-- The `getHighestReviewedCommitId` flow of src/review.ts: decode the
persisted block only when it is non-empty, and fall back to the PR base sha
when the match is empty or equals the head sha.  `decodeIds` stands for
`Commenter.getReviewedCommitIds`, an external collaborator. -/
def resolveHighestReviewedCommitId (decodeIds : List Char → List (List Char))
    (allCommitIds : List (List Char))
    (existingCommitIdsBlock headSha baseSha : List Char) : List Char :=
  let highest := if existingCommitIdsBlock ≠ [] then
      commenterGetHighestReviewedCommitId allCommitIds (decodeIds existingCommitIdsBlock)
    else []
  if highest = [] ∨ highest = headSha then baseSha else highest

/-! ## Specification-side definitions

These definitions follow the words of the specification (or of an amended
claim) and are compared with the source-derived definitions above. -/

/-- The range-opening line as claim C6 words it: optional leading
whitespace, a decimal range `start-end`, a trailing colon and then the end
of the line — nothing else before or after. -/
def claimRangeLine (l : List Char) : Option (Int × Int) :=
  match (l.dropWhile isJsSpace).span Char.isDigit with
  | ([], _) => none
  | (d1, '-' :: r2) =>
    match r2.span Char.isDigit with
    | ([], _) => none
    | (d2, [':']) => some ((valOfDigits d1 : Int), (valOfDigits d2 : Int))
    | _ => none
  | _ => none

/-- The scan machine as claim C6 words it: range lines are exactly
`claimRangeLine` matches and separator lines are exactly the literal `---`. -/
def claimScan : List (List Char) → Option Int → Option Int → List Char →
    List (Int × Int × List Char)
  | [], cs, ce, cm => flushCand cs ce cm
  | l :: rest, cs, ce, cm =>
    match claimRangeLine l with
    | some (s, e) => flushCand cs ce cm ++ claimScan rest (some s) (some e) []
    | none =>
      if l = ("---").data then flushCand cs ce cm ++ claimScan rest none none []
      else if cs.isSome && ce.isSome then claimScan rest cs ce (cm ++ l ++ ['\n'])
      else claimScan rest cs ce cm

/-- The boundary required before the start digits of a range (reading the
line backwards): the line start, or a whitespace character. -/
def specBoundary : List Char → Bool
  | [] => true
  | c :: _ => isJsSpace c

/-- After the reversed line has yielded `:` then the reversed second digit
run then `-`: take the reversed first digit run and require the boundary. -/
def specAfterDash (d2r r3 : List Char) : Option (Int × Int) :=
  match r3.span Char.isDigit with
  | ([], _) => none
  | (d1r, r4) =>
    if specBoundary r4 then
      some ((valOfDigits d1r.reverse : Int), (valOfDigits d2r.reverse : Int))
    else none

/-- After the reversed line (with trailing whitespace removed) has yielded
its leading `:`: take the reversed second digit run, require `-`, continue. -/
def specAfterColon (r1 : List Char) : Option (Int × Int) :=
  match r1.span Char.isDigit with
  | ([], _) => none
  | (d2r, '-' :: r3) => specAfterDash d2r r3
  | _ => none

/-- The range-opening line as the amended claim C6 words it: after removing
trailing whitespace the line ends with `start-end:` where the character
standing before the start digits is a whitespace character or the line
start.  The digit runs adjacent to the `-` are the captures. -/
def specRangeLine (l : List Char) : Option (Int × Int) :=
  match l.reverse.dropWhile isJsSpace with
  | ':' :: r1 => specAfterColon r1
  | _ => none

/-- The explicit two-state scanner of the amended claim C6: `idle`, or
`collecting` a comment opened at a range. -/
inductive ScanMode where
  | idle : ScanMode
  | collecting : Int → Int → List Char → ScanMode
deriving DecidableEq, Repr

/-- Flush of the explicit-state scanner. -/
def specFlush : ScanMode → List (Int × Int × List Char)
  | .idle => []
  | .collecting s e b => [(s, e, b)]

/-- The scan machine of the amended claim C6: a line accepted by
`specRangeLine` flushes and opens a new comment, a line whose
whitespace-trimmed content is `---` flushes to idle, any other line is
appended while collecting, and the end of input flushes. -/
def specScan : List (List Char) → ScanMode → List (Int × Int × List Char)
  | [], m => specFlush m
  | l :: rest, m =>
    match specRangeLine l with
    | some (s, e) => specFlush m ++ specScan rest (.collecting s e [])
    | none =>
      if jsTrim l = ("---").data then specFlush m ++ specScan rest .idle
      else
        match m with
        | .idle => specScan rest .idle
        | .collecting s e b => specScan rest (.collecting s e (b ++ l ++ ['\n']))

/-- The scan mode that a `scanLoop` state stands for: collecting when both
line bounds are present, idle otherwise. -/
def modeOf : Option Int → Option Int → List Char → ScanMode
  | some s, some e, cm => .collecting s e cm
  | _, _, _ => .idle

/-! ## Lemmas about the packing loops -/

theorem packCount_le_length {α : Type} (cost : α → Nat) (budget : Nat) :
    ∀ (l : List α) (t : Nat), patchesToPackCount cost budget l t ≤ l.length := by
  intro l
  induction l with
  | nil => intro t; simp [patchesToPackCount]
  | cons p rest ih =>
    intro t
    simp only [patchesToPackCount, List.length_cons]
    split
    · omega
    · have := ih (t + cost p)
      omega

theorem packCount_sum_le {α : Type} (cost : α → Nat) (budget : Nat) :
    ∀ (l : List α) (t : Nat), t ≤ budget →
      t + ((l.take (patchesToPackCount cost budget l t)).map cost).sum ≤ budget := by
  intro l
  induction l with
  | nil => intro t ht; simpa [patchesToPackCount]
  | cons p rest ih =>
    intro t ht
    simp only [patchesToPackCount]
    split
    · simpa
    · rename_i h
      have h2 := ih (t + cost p) (by omega)
      simp only [List.take_succ_cons, List.map_cons, List.sum_cons]
      omega

theorem packCount_max {α : Type} (cost : α → Nat) (budget : Nat) :
    ∀ (l : List α) (j t : Nat), j ≤ l.length →
      t + ((l.take j).map cost).sum ≤ budget → j ≤ patchesToPackCount cost budget l t := by
  intro l
  induction l with
  | nil =>
    intro j t hj _
    simp only [List.length_nil, Nat.le_zero] at hj
    simp [hj, patchesToPackCount]
  | cons p rest ih =>
    intro j t hj hsum
    cases j with
    | zero => omega
    | succ j' =>
      simp only [List.take_succ_cons, List.map_cons, List.sum_cons] at hsum
      simp only [patchesToPackCount]
      split
      · rename_i hlt; omega
      · have := ih j' (t + cost p) (by simpa using hj) (by omega)
        omega

theorem packCount_stop {α : Type} (cost : α → Nat) (budget : Nat) :
    ∀ (l : List α) (t : Nat), t ≤ budget →
      patchesToPackCount cost budget l t = l.length ∨
      budget < t + ((l.take (patchesToPackCount cost budget l t + 1)).map cost).sum := by
  intro l
  induction l with
  | nil => intro t ht; left; simp [patchesToPackCount]
  | cons p rest ih =>
    intro t ht
    simp only [patchesToPackCount]
    split
    · rename_i hlt
      right
      simp only [List.take_succ_cons, List.map_cons, List.sum_cons, List.take_zero,
        List.map_nil, List.sum_nil]
      omega
    · rename_i hge
      rcases ih (t + cost p) (by omega) with h | h
      · left; simp [h]
      · right
        simp only [List.take_succ_cons, List.map_cons, List.sum_cons]
        omega

theorem packLoop_take {α : Type} :
    ∀ (l : List α) (packed toPack : Nat), packLoop l packed toPack = l.take (toPack - packed) := by
  intro l
  induction l with
  | nil => intro packed toPack; simp [packLoop]
  | cons p rest ih =>
    intro packed toPack
    simp only [packLoop]
    split
    · rename_i h
      have h0 : toPack - packed = 0 := by omega
      simp [h0]
    · rename_i h
      rw [ih]
      have h1 : toPack - packed = (toPack - (packed + 1)) + 1 := by omega
      rw [h1, List.take_succ_cons]

/-- Claim C5: with `existingTokens = 0` the packer includes exactly the
longest prefix of the patch sequence whose cumulative token cost stays
within budget: the packed prefix's total cost fits, every longer feasible
prefix is no longer than the packed one, no packed unit's own cost exceeds
the budget, the second loop appends exactly that prefix in original order
(no reordering or splitting), and the count stops exactly before the first
unit whose cost would push the total over budget. -/
theorem C5_greedy_packing (α : Type) (cost : α → Nat) (budget : Nat)
    (patches : List α) (j : Nat) (hj : j ≤ patches.length)
    (hsum : ((patches.take j).map cost).sum ≤ budget) :
    ((patches.take (patchesToPackCount cost budget patches 0)).map cost).sum ≤ budget ∧
    j ≤ patchesToPackCount cost budget patches 0 ∧
    (∀ p ∈ patches.take (patchesToPackCount cost budget patches 0), cost p ≤ budget) ∧
    packLoop patches 0 (patchesToPackCount cost budget patches 0) =
      patches.take (patchesToPackCount cost budget patches 0) ∧
    (patchesToPackCount cost budget patches 0 = patches.length ∨
      budget < ((patches.take (patchesToPackCount cost budget patches 0 + 1)).map cost).sum) := by
  have hfit := packCount_sum_le cost budget patches 0 (Nat.zero_le budget)
  simp only [Nat.zero_add] at hfit
  refine ⟨hfit, ?_, ?_, ?_, ?_⟩
  · exact packCount_max cost budget patches j 0 hj (by simpa using hsum)
  · intro p hp
    have hmem : cost p ∈ (patches.take (patchesToPackCount cost budget patches 0)).map cost :=
      List.mem_map_of_mem cost hp
    exact le_trans (List.single_le_sum (fun x _ => Nat.zero_le x) _ hmem) hfit
  · simpa using packLoop_take patches 0 (patchesToPackCount cost budget patches 0)
  · have := packCount_stop cost budget patches 0 (Nat.zero_le budget)
    simpa using this

/-- Witness for C5 at a concrete input: costs `[2, 3, 9]`, budget `6`,
feasible prefix length `1`. -/
theorem C5_greedy_packing_witness :
    ((([2, 3, 9] : List Nat).take (patchesToPackCount id 6 [2, 3, 9] 0)).map id).sum ≤ 6 ∧
    1 ≤ patchesToPackCount id 6 [2, 3, 9] 0 ∧
    (∀ p ∈ ([2, 3, 9] : List Nat).take (patchesToPackCount id 6 [2, 3, 9] 0), id p ≤ 6) ∧
    packLoop [2, 3, 9] 0 (patchesToPackCount id 6 [2, 3, 9] 0) =
      ([2, 3, 9] : List Nat).take (patchesToPackCount id 6 [2, 3, 9] 0) ∧
    (patchesToPackCount id 6 [2, 3, 9] 0 = ([2, 3, 9] : List Nat).length ∨
      6 < ((([2, 3, 9] : List Nat).take (patchesToPackCount id 6 [2, 3, 9] 0 + 1)).map id).sum) :=
  C5_greedy_packing Nat id 6 [2, 3, 9] 1 (by decide) (by decide)

/-! ## Claim C7: the incremental range tracker -/

/-- Claim C7 (spec-modelled: the Commenter collaborator is not under src/):
the resolved base is the fallback base sha when the persisted block is
empty, when the decoded set of previously reviewed ids is empty, and when
the best match equals the head sha; in every other case (a non-empty match
different from the head) it is the matched commit id. -/
theorem C7_resolve_base (decodeIds : List Char → List (List Char))
    (allCommitIds : List (List Char)) (block headSha baseSha : List Char) :
    (block = [] →
      resolveHighestReviewedCommitId decodeIds allCommitIds block headSha baseSha = baseSha) ∧
    (decodeIds block = [] →
      resolveHighestReviewedCommitId decodeIds allCommitIds block headSha baseSha = baseSha) ∧
    (commenterGetHighestReviewedCommitId allCommitIds (decodeIds block) = headSha →
      resolveHighestReviewedCommitId decodeIds allCommitIds block headSha baseSha = baseSha) ∧
    (block ≠ [] →
      commenterGetHighestReviewedCommitId allCommitIds (decodeIds block) ≠ [] →
      commenterGetHighestReviewedCommitId allCommitIds (decodeIds block) ≠ headSha →
      resolveHighestReviewedCommitId decodeIds allCommitIds block headSha baseSha =
        commenterGetHighestReviewedCommitId allCommitIds (decodeIds block)) := by
  refine ⟨?_, ?_, ?_, ?_⟩
  · intro hb
    simp [resolveHighestReviewedCommitId, hb]
  · intro hd
    by_cases hb : block = []
    · simp [resolveHighestReviewedCommitId, hb]
    · simp [resolveHighestReviewedCommitId, hb, commenterGetHighestReviewedCommitId, hd]
  · intro hm
    by_cases hb : block = []
    · simp [resolveHighestReviewedCommitId, hb]
    · simp [resolveHighestReviewedCommitId, hb, hm]
  · intro hb hne hnh
    simp [resolveHighestReviewedCommitId, hb, hne, hnh]

/-- Witness for C7 at a concrete input: a non-empty block decoding to
`["a"]`, branch commits `["a", "b"]`, head `"h"`, base `"base"`; the match
`"a"` is returned. -/
theorem C7_resolve_base_witness :
    resolveHighestReviewedCommitId (fun _ => [("a").data]) [("a").data, ("b").data]
      (("blk").data) (("h").data) (("base").data) =
      commenterGetHighestReviewedCommitId [("a").data, ("b").data] [("a").data] :=
  (C7_resolve_base (fun _ => [("a").data]) [("a").data, ("b").data]
    (("blk").data) (("h").data) (("base").data)).2.2.2 (by decide) (by decide) (by decide)

/-! ## Claim C8: splitPatch -/

theorem segsFrom_length (patch : List Char) :
    ∀ (idxs : List Nat), (segsFrom patch idxs).length = idxs.length := by
  intro idxs
  induction idxs with
  | nil => simp [segsFrom]
  | cons i tail ih =>
    cases tail with
    | nil => simp [segsFrom]
    | cons j rest =>
      simp only [segsFrom, List.length_cons] at ih ⊢
      omega

/-- Claim C8: `splitPatch` yields one raw hunk string per hunk-header line;
a text with no header line yields the empty sequence, and a single header
line (even with no body after it) yields exactly one hunk running from the
header to the end of the text. -/
theorem C8_split_per_header (patch : List Char) :
    (splitPatch patch).length = (findHeaderStarts true 0 patch).length ∧
    (findHeaderStarts true 0 patch = [] → splitPatch patch = []) ∧
    (∀ i : Nat, findHeaderStarts true 0 patch = [i] → splitPatch patch = [patch.drop i]) := by
  refine ⟨segsFrom_length patch _, ?_, ?_⟩
  · intro h
    simp [splitPatch, h, segsFrom]
  · intro i h
    simp [splitPatch, h, segsFrom]

/-- Witness for C8 at a concrete input: a bare header with no body yields
exactly one hunk holding the whole text (an empty body, no error). -/
theorem C8_split_per_header_witness :
    splitPatch (("@@ -1,2 +3,4 @@").data) = [(("@@ -1,2 +3,4 @@").data)] := by
  have h := (C8_split_per_header (("@@ -1,2 +3,4 @@").data)).2.2 0 (by decide)
  simpa using h

/-! ## Lemmas about the annotator (parsePatch) -/

theorem dash_not_plus {l : List Char} (h : startsWithDash l = true) :
    startsWithPlus l = false := by
  cases l with
  | nil => simp [startsWithDash] at h
  | cons c cs =>
    simp only [startsWithDash, beq_iff_eq] at h
    subst h
    rfl

/-- The number of `newView` entries contributed by a list of body lines:
one per non-`-` line. -/
def countNewEntries (ls : List (List Char)) : Nat :=
  (ls.filter (fun l => !startsWithDash l)).length

/-- What one body line contributes to `oldView`: a `-` line its stripped
text, a context line its raw text, a `+` line nothing. -/
def oldViewEntry (l : List Char) : Option (List Char) :=
  if startsWithDash l then some (l.drop 1)
  else if startsWithPlus l then none else some l

theorem annotateLoop_fst (ro : Bool) (n : Nat) :
    ∀ (ls : List (List Char)) (nl : Int) (c0 : Nat),
      (annotateLoop ro n ls nl c0).1 = ls.filterMap oldViewEntry := by
  intro ls
  induction ls with
  | nil => intro nl c0; simp [annotateLoop]
  | cons hd tl ih =>
    intro nl c0
    by_cases h1 : startsWithDash hd
    · simp [annotateLoop, h1, ih, oldViewEntry]
    · by_cases h2 : startsWithPlus hd
      · simp [annotateLoop, h1, h2, ih, oldViewEntry]
      · simp [annotateLoop, h1, h2, ih, oldViewEntry]

theorem annotateLoop_snd_length (ro : Bool) (n : Nat) :
    ∀ (ls : List (List Char)) (nl : Int) (c0 : Nat),
      (annotateLoop ro n ls nl c0).2.length = countNewEntries ls := by
  intro ls
  induction ls with
  | nil => intro nl c0; simp [annotateLoop, countNewEntries]
  | cons hd tl ih =>
    intro nl c0
    by_cases h1 : startsWithDash hd
    · simp [annotateLoop, h1, ih, countNewEntries]
    · by_cases h2 : startsWithPlus hd
      · simp [annotateLoop, h1, h2, ih, countNewEntries]
      · simp [annotateLoop, h1, h2, ih, countNewEntries]

theorem annotateLoop_fst_length (ro : Bool) (n : Nat) :
    ∀ (ls : List (List Char)) (nl : Int) (c0 : Nat),
      (annotateLoop ro n ls nl c0).1.length =
        (ls.filter (fun l => !startsWithPlus l)).length := by
  intro ls
  induction ls with
  | nil => intro nl c0; simp [annotateLoop]
  | cons hd tl ih =>
    intro nl c0
    by_cases h1 : startsWithDash hd
    · simp [annotateLoop, h1, ih, dash_not_plus h1]
    · by_cases h2 : startsWithPlus hd
      · simp [annotateLoop, h1, h2, ih]
      · simp [annotateLoop, h1, h2, ih]

theorem annotateLoop_get_context :
    ∀ (ls : List (List Char)) (ro : Bool) (n : Nat) (nl : Int) (c0 : Nat) (i : Nat)
      (l : List Char),
      ls.get? i = some l → startsWithDash l = false → startsWithPlus l = false →
      (annotateLoop ro n ls nl c0).2.get? (countNewEntries (ls.take i)) =
        some (if ro || (decide (3 < c0 + i + 1) && decide ((((c0 + i + 1 : Nat)) : Int) ≤ (n : Int) - 3))
          then numberedLine (nl + (countNewEntries (ls.take i) : Int)) l else l) := by
  intro ls
  induction ls with
  | nil => intro ro n nl c0 i l h; simp at h
  | cons hd tl ih =>
    intro ro n nl c0 i l h hdash hplus
    cases i with
    | zero =>
      simp only [List.get?_cons_zero, Option.some.injEq] at h
      subst h
      simp [annotateLoop, hdash, hplus, countNewEntries]
    | succ i' =>
      simp only [List.get?_cons_succ] at h
      have harith : (c0 + 1) + i' + 1 = c0 + (i' + 1) + 1 := by omega
      by_cases h1 : startsWithDash hd
      · have := ih ro n nl (c0 + 1) i' l h hdash hplus
        rw [harith] at this
        simpa [annotateLoop, h1, countNewEntries] using this
      · by_cases h2 : startsWithPlus hd
        · have hrec := ih ro n (nl + 1) (c0 + 1) i' l h hdash hplus
          rw [harith] at hrec
          have hcnt : countNewEntries ((hd :: tl).take (i' + 1)) =
              countNewEntries (tl.take i') + 1 := by
            simp [countNewEntries, List.take_succ_cons, h1]
          have hval : nl + 1 + (countNewEntries (tl.take i') : Int) =
              nl + ((countNewEntries (tl.take i') + 1 : Nat) : Int) := by
            push_cast
            ring
          rw [hval] at hrec
          rw [hcnt]
          simpa [annotateLoop, h1, h2] using hrec
        · have hrec := ih ro n (nl + 1) (c0 + 1) i' l h hdash hplus
          rw [harith] at hrec
          have hcnt : countNewEntries ((hd :: tl).take (i' + 1)) =
              countNewEntries (tl.take i') + 1 := by
            simp [countNewEntries, List.take_succ_cons, h1]
          have hval : nl + 1 + (countNewEntries (tl.take i') : Int) =
              nl + ((countNewEntries (tl.take i') + 1 : Nat) : Int) := by
            push_cast
            ring
          rw [hval] at hrec
          rw [hcnt]
          simpa [annotateLoop, h1, h2] using hrec

/-- Claim C3: the annotator numbers a context line of the body in `newView`
iff the hunk has no `+` line at all (removal-only) or the line's 1-based
body position is strictly after the first 3 and not within the last 3 body
lines; with at least one `+` line, context lines inside that skip window
stay unnumbered.  The numbered entry carries the running new-file line
number, which for the `i`-th body line is the start line plus the number of
preceding non-`-` lines. -/
theorem C3_context_skip_window (ls : List (List Char)) (nl : Int) (i : Nat) (l : List Char)
    (hget : ls.get? i = some l) (hdash : startsWithDash l = false)
    (hplus : startsWithPlus l = false) :
    (annotateLoop (removalOnly ls) ls.length ls nl 0).2.get? (countNewEntries (ls.take i)) =
      some (if removalOnly ls ||
          (decide (3 < i + 1) && decide (((i + 1 : Nat) : Int) ≤ (ls.length : Int) - 3))
        then numberedLine (nl + (countNewEntries (ls.take i) : Int)) l else l) := by
  have h := annotateLoop_get_context ls (removalOnly ls) ls.length nl 0 i l hget hdash hplus
  simpa using h

/-- Witness for C3 at a concrete input: an 8-line body with one `+` line;
the context line at body position 5 lies outside the skip window and is
numbered `5`. -/
theorem C3_context_skip_window_witness :
    (annotateLoop
        (removalOnly [[' '], [' '], [' '], ['+'], [' '], [' '], [' '], [' ']])
        ([[' '], [' '], [' '], ['+'], [' '], [' '], [' '], [' ']] : List (List Char)).length
        [[' '], [' '], [' '], ['+'], [' '], [' '], [' '], [' ']] 1 0).2.get?
      (countNewEntries (([[' '], [' '], [' '], ['+'], [' '], [' '], [' '], [' ']] :
        List (List Char)).take 4)) = some (("5:  ").data) := by
  rw [C3_context_skip_window [[' '], [' '], [' '], ['+'], [' '], [' '], [' '], [' ']]
    1 4 [' '] (by decide) (by decide) (by decide)]
  decide

/-- Claim C4: for a well-formed hunk whose body matches the header counts
`@@ -a,b +c,d @@`, the annotator produces exactly `d` entries in `newView`
and preserves all `b` old-file lines in `oldView` (every `-` and context
line, in order, with the `-` marker stripped), and `parsePatch` returns the
two joined views. -/
theorem C4_annotate_counts (patch : List Char) (a b c d : Nat)
    (hh : findFirstHeader true patch = some (a, b, c, d))
    (hold : ((bodyLines patch).filter (fun l => !startsWithPlus l)).length = b)
    (hnew : ((bodyLines patch).filter (fun l => !startsWithDash l)).length = d) :
    ((annotateLoop (removalOnly (bodyLines patch)) (bodyLines patch).length (bodyLines patch)
        ((c : Nat) : Int) 0).2).length = d ∧
    (annotateLoop (removalOnly (bodyLines patch)) (bodyLines patch).length (bodyLines patch)
        ((c : Nat) : Int) 0).1 = (bodyLines patch).filterMap oldViewEntry ∧
    ((annotateLoop (removalOnly (bodyLines patch)) (bodyLines patch).length (bodyLines patch)
        ((c : Nat) : Int) 0).1).length = b ∧
    parsePatch patch = some
      (joinNl ((annotateLoop (removalOnly (bodyLines patch)) (bodyLines patch).length
        (bodyLines patch) ((c : Nat) : Int) 0).1),
       joinNl ((annotateLoop (removalOnly (bodyLines patch)) (bodyLines patch).length
        (bodyLines patch) ((c : Nat) : Int) 0).2)) := by
  refine ⟨?_, annotateLoop_fst _ _ _ _ _, ?_, ?_⟩
  · rw [annotateLoop_snd_length]
    simpa [countNewEntries] using hnew
  · rw [annotateLoop_fst_length]
    exact hold
  · simp [parsePatch, patchStartEndLine, hh]

/-- Witness for C4 at a concrete input: header `@@ -1,2 +1,3 @@` with a
matching body (one context, one `-`, two `+` lines) yields exactly 3
`newView` entries. -/
theorem C4_annotate_counts_witness :
    ((annotateLoop (removalOnly (bodyLines (("@@ -1,2 +1,3 @@\n ctx\n-old\n+n1\n+n2").data)))
        (bodyLines (("@@ -1,2 +1,3 @@\n ctx\n-old\n+n1\n+n2").data)).length
        (bodyLines (("@@ -1,2 +1,3 @@\n ctx\n-old\n+n1\n+n2").data))
        ((1 : Nat) : Int) 0).2).length = 3 :=
  (C4_annotate_counts (("@@ -1,2 +1,3 @@\n ctx\n-old\n+n1\n+n2").data) 1 2 1 3
    (by decide) (by decide) (by decide)).1

/-! ## Lemmas about the reconciler's patch scan (storeReview) -/

theorem inter_le_len {s e us ue : Int} (hse : s ≤ e) : inter s e us ue ≤ e - s + 1 := by
  simp only [inter]
  omega

theorem inter_eq_len_of_contains {s e us ue : Int} (hse : s ≤ e) (h1 : us ≤ s) (h2 : e ≤ ue) :
    inter s e us ue = e - s + 1 := by
  simp only [inter]
  omega

theorem contains_of_inter_eq_len {s e us ue : Int} (hpos : 1 ≤ inter s e us ue)
    (heq : inter s e us ue = e - s + 1) : us ≤ s ∧ e ≤ ue := by
  simp only [inter] at hpos heq
  omega

theorem storeScan_cons_lt {s e us ue bs be mi : Int} {rest : List (Int × Int)}
    (hlt : mi < inter s e us ue) :
    storeScan s e ((us, ue) :: rest) false bs be mi =
      if inter s e us ue = e - s + 1 then (true, us, ue, inter s e us ue)
      else storeScan s e rest false us ue (inter s e us ue) := by
  by_cases heq : inter s e us ue = e - s + 1
  · rw [if_pos heq]
    have hbeq : (inter s e us ue == e - s + 1) = true := by simpa using heq
    simp [storeScan, hlt, hbeq]
  · rw [if_neg heq]
    have hbeq : (inter s e us ue == e - s + 1) = false := by simpa using heq
    simp [storeScan, hlt, hbeq]

theorem storeScan_cons_skip {s e us ue bs be mi : Int} {rest : List (Int × Int)}
    (hge : ¬ mi < inter s e us ue) :
    storeScan s e ((us, ue) :: rest) false bs be mi = storeScan s e rest false bs be mi := by
  simp [storeScan, hge]

theorem storeScan_wp_of_contains :
    ∀ (ranges : List (Int × Int)) (s e bs be mi : Int), mi < e - s + 1 → s ≤ e →
      (∃ r ∈ ranges, r.1 ≤ s ∧ e ≤ r.2) →
      (storeScan s e ranges false bs be mi).1 = true := by
  intro ranges
  induction ranges with
  | nil =>
    rintro s e bs be mi hmi hse ⟨r, hr, _⟩
    simp at hr
  | cons u rest ih =>
    rintro s e bs be mi hmi hse ⟨r, hr, hc1, hc2⟩
    obtain ⟨us, ue⟩ := u
    by_cases hlt : mi < inter s e us ue
    · rw [storeScan_cons_lt hlt]
      by_cases heq : inter s e us ue = e - s + 1
      · simp [heq]
      · have hlen : inter s e us ue < e - s + 1 :=
          lt_of_le_of_ne (inter_le_len hse) heq
        rcases List.mem_cons.mp hr with hur | hr'
        · exfalso
          subst hur
          exact heq (inter_eq_len_of_contains hse (by simpa using hc1) (by simpa using hc2))
        · have hrec := ih s e us ue (inter s e us ue) hlen hse ⟨r, hr', hc1, hc2⟩
          simpa [heq] using hrec
    · rcases List.mem_cons.mp hr with hur | hr'
      · exfalso
        subst hur
        have := inter_eq_len_of_contains hse (by simpa using hc1) (by simpa using hc2)
        omega
      · have hrec := ih s e bs be mi hmi hse ⟨r, hr', hc1, hc2⟩
        rw [storeScan_cons_skip hlt]
        exact hrec

theorem storeScan_wp_true_contains :
    ∀ (ranges : List (Int × Int)) (s e bs be mi : Int), 0 ≤ mi →
      (storeScan s e ranges false bs be mi).1 = true →
      ∃ r ∈ ranges, r.1 ≤ s ∧ e ≤ r.2 := by
  intro ranges
  induction ranges with
  | nil => intro s e bs be mi _ hw; simp [storeScan] at hw
  | cons u rest ih =>
    intro s e bs be mi h0 hw
    obtain ⟨us, ue⟩ := u
    by_cases hlt : mi < inter s e us ue
    · rw [storeScan_cons_lt hlt] at hw
      by_cases heq : inter s e us ue = e - s + 1
      · refine ⟨(us, ue), List.mem_cons_self _ _, ?_⟩
        dsimp only
        exact contains_of_inter_eq_len (by omega) heq
      · rw [if_neg heq] at hw
        obtain ⟨r, hr, hc⟩ := ih s e us ue (inter s e us ue) (by omega) hw
        exact ⟨r, List.mem_cons_of_mem _ hr, hc⟩
    · rw [storeScan_cons_skip hlt] at hw
      obtain ⟨r, hr, hc⟩ := ih s e bs be mi h0 hw
      exact ⟨r, List.mem_cons_of_mem _ hr, hc⟩

theorem storeScan_best_mem :
    ∀ (ranges : List (Int × Int)) (s e : Int) (bs be mi : Int),
      ((storeScan s e ranges false bs be mi).2.1 = bs ∧
        (storeScan s e ranges false bs be mi).2.2.1 = be) ∨
      (∃ r ∈ ranges, (storeScan s e ranges false bs be mi).2.1 = r.1 ∧
        (storeScan s e ranges false bs be mi).2.2.1 = r.2) := by
  intro ranges
  induction ranges with
  | nil => intro s e bs be mi; left; simp [storeScan]
  | cons u rest ih =>
    intro s e bs be mi
    obtain ⟨us, ue⟩ := u
    by_cases hlt : mi < inter s e us ue
    · rw [storeScan_cons_lt hlt]
      by_cases heq : inter s e us ue = e - s + 1
      · right
        refine ⟨(us, ue), List.mem_cons_self _ _, ?_, ?_⟩ <;> rw [if_pos heq]
      · rw [if_neg heq]
        rcases ih s e us ue (inter s e us ue) with ⟨h1, h2⟩ | ⟨r, hr, h1, h2⟩
        · right
          exact ⟨(us, ue), List.mem_cons_self _ _, h1, h2⟩
        · right
          exact ⟨r, List.mem_cons_of_mem _ hr, h1, h2⟩
    · rw [storeScan_cons_skip hlt]
      rcases ih s e bs be mi with h | ⟨r, hr, h1, h2⟩
      · left; exact h
      · right; exact ⟨r, List.mem_cons_of_mem _ hr, h1, h2⟩

theorem storeScan_no_contain_spec :
    ∀ (ranges : List (Int × Int)) (s e bs be mi : Int),
      (∀ r ∈ ranges, inter s e r.1 r.2 ≠ e - s + 1) →
      ∃ bs' be' mi', storeScan s e ranges false bs be mi = (false, bs', be', mi') ∧
        mi ≤ mi' ∧ (∀ r ∈ ranges, inter s e r.1 r.2 ≤ mi') ∧
        ((bs' = bs ∧ be' = be ∧ mi' = mi) ∨
          (∃ r ∈ ranges, bs' = r.1 ∧ be' = r.2 ∧ mi' = inter s e r.1 r.2 ∧ mi < mi')) := by
  intro ranges
  induction ranges with
  | nil =>
    intro s e bs be mi _
    exact ⟨bs, be, mi, by simp [storeScan], le_refl mi, by simp, Or.inl ⟨rfl, rfl, rfl⟩⟩
  | cons u rest ih =>
    intro s e bs be mi hno
    obtain ⟨us, ue⟩ := u
    have hhd : inter s e us ue ≠ e - s + 1 := by
      have := hno (us, ue) (List.mem_cons_self _ _)
      simpa using this
    have hrest : ∀ r ∈ rest, inter s e r.1 r.2 ≠ e - s + 1 := by
      intro r hr
      exact hno r (List.mem_cons_of_mem _ hr)
    by_cases hlt : mi < inter s e us ue
    · obtain ⟨bs2, be2, mi2, heq2, hle2, hbound2, hbranch2⟩ :=
        ih s e us ue (inter s e us ue) hrest
      refine ⟨bs2, be2, mi2, ?_, by omega, ?_, ?_⟩
      · rw [storeScan_cons_lt hlt, if_neg hhd]
        exact heq2
      · intro r hr
        rcases List.mem_cons.mp hr with hur | hr2
        · subst hur
          dsimp only
          omega
        · exact hbound2 r hr2
      · rcases hbranch2 with ⟨h1, h2, h3⟩ | ⟨r, hr, h1, h2, h3, h4⟩
        · right
          exact ⟨(us, ue), List.mem_cons_self _ _, by simpa using h1, by simpa using h2,
            by dsimp only; omega, by omega⟩
        · right
          exact ⟨r, List.mem_cons_of_mem _ hr, h1, h2, h3, by omega⟩
    · obtain ⟨bs2, be2, mi2, heq2, hle2, hbound2, hbranch2⟩ := ih s e bs be mi hrest
      refine ⟨bs2, be2, mi2, ?_, hle2, ?_, ?_⟩
      · rw [storeScan_cons_skip hlt]
        exact heq2
      · intro r hr
        rcases List.mem_cons.mp hr with hur | hr2
        · subst hur
          dsimp only
          omega
        · exact hbound2 r hr2
      · rcases hbranch2 with h | ⟨r, hr, h1, h2, h3, h4⟩
        · left; exact h
        · right; exact ⟨r, List.mem_cons_of_mem _ hr, h1, h2, h3, h4⟩

/-! ## Lemmas about storeReview -/

theorem storeReviewE_keep {patches : List (Int × Int × List Char)} {s e : Int} {cm : List Char}
    (hse : s ≤ e) (hex : ∃ u ∈ patches, u.1 ≤ s ∧ e ≤ u.2.1) :
    storeReviewE patches s e cm = some ⟨s, e, cm⟩ := by
  have hex2 : ∃ r ∈ patches.map (fun p => (p.1, p.2.1)), r.1 ≤ s ∧ e ≤ r.2 := by
    obtain ⟨u, hu, h1, h2⟩ := hex
    exact ⟨(u.1, u.2.1), List.mem_map_of_mem _ hu, h1, h2⟩
  have hw := storeScan_wp_of_contains (patches.map (fun p => (p.1, p.2.1))) s e (-1) (-1) 0
    (by omega) hse hex2
  simp only [storeReviewE]
  rw [hw]
  simp

theorem storeReviewE_some_contained {patches : List (Int × Int × List Char)} {s e : Int}
    {cm : List Char} {r : Review} (hne : patches ≠ [])
    (h : storeReviewE patches s e cm = some r) :
    ∃ u ∈ patches, u.1 ≤ r.startLine ∧ r.endLine ≤ u.2.1 := by
  rcases patches with _ | ⟨p, ps⟩
  · exact absurd rfl hne
  simp only [storeReviewE] at h
  cases ht : (storeScan s e ((p :: ps).map (fun q => (q.1, q.2.1))) false (-1) (-1) 0).1 with
  | true =>
    rw [ht] at h
    simp only [if_true] at h
    obtain ⟨rr, hrr, hc1, hc2⟩ := storeScan_wp_true_contains
      ((p :: ps).map (fun q => (q.1, q.2.1))) s e (-1) (-1) 0 (by omega) ht
    obtain ⟨u, hu, huf⟩ := List.mem_map.mp hrr
    have hr := Option.some.inj h
    refine ⟨u, hu, ?_, ?_⟩
    · rw [← hr]
      rw [← huf] at hc1
      simpa using hc1
    · rw [← hr]
      rw [← huf] at hc2
      simpa using hc2
  | false =>
    rw [ht] at h
    simp only [Bool.false_eq_true, if_false] at h
    by_cases hok : (storeScan s e ((p :: ps).map (fun q => (q.1, q.2.1))) false (-1) (-1) 0).2.1 ≠ -1 ∧
        (storeScan s e ((p :: ps).map (fun q => (q.1, q.2.1))) false (-1) (-1) 0).2.2.1 ≠ -1
    · rw [if_pos hok] at h
      have hr := Option.some.inj h
      rcases storeScan_best_mem ((p :: ps).map (fun q => (q.1, q.2.1))) s e (-1) (-1) 0 with
        ⟨h1, h2⟩ | ⟨rr, hrr, h1, h2⟩
      · exact absurd h1 hok.1
      · obtain ⟨u, hu, huf⟩ := List.mem_map.mp hrr
        refine ⟨u, hu, ?_, ?_⟩
        · rw [← hr]
          rw [← huf] at h1
          simp only at h1 ⊢
          omega
        · rw [← hr]
          rw [← huf] at h2
          simp only at h2 ⊢
          omega
    · rw [if_neg hok] at h
      have hr := Option.some.inj h
      refine ⟨p, List.mem_cons_self _ _, ?_, ?_⟩
      · rw [← hr]
      · rw [← hr]

theorem storeReviewE_isSome {patches : List (Int × Int × List Char)} {s e : Int} {cm : List Char}
    (hne : patches ≠ []) : (storeReviewE patches s e cm).isSome = true := by
  rcases patches with _ | ⟨p, ps⟩
  · exact absurd rfl hne
  simp only [storeReviewE]
  split
  · simp
  · split
    · simp
    · simp

theorem storeReviewE_nil {s e : Int} {cm : List Char} : storeReviewE [] s e cm = none := by
  simp [storeReviewE, storeScan]

/-- Claim C2 (trichotomy of the flush reconciliation): with a non-empty
patch list of well-formed units, a candidate fully inside some unit is kept
unchanged; a candidate contained in no unit but overlapping at least one is
reassigned the range of a unit with the greatest intersection and its body
prefixed with the mapped-to-greatest-overlap note citing the original
range; a candidate disjoint from every unit is reassigned the first unit's
range with the no-overlapping-patch note; and no candidate is ever dropped. -/
theorem C2_flush_trichotomy (p : Int × Int × List Char) (ps : List (Int × Int × List Char))
    (s e : Int) (cm : List Char) (hse : s ≤ e)
    (hnn : ∀ u ∈ p :: ps, 0 ≤ u.1 ∧ 0 ≤ u.2.1) :
    ((∃ u ∈ p :: ps, u.1 ≤ s ∧ e ≤ u.2.1) →
      storeReviewE (p :: ps) s e cm = some ⟨s, e, cm⟩) ∧
    ((¬ ∃ u ∈ p :: ps, u.1 ≤ s ∧ e ≤ u.2.1) → (∃ u ∈ p :: ps, 0 < inter s e u.1 u.2.1) →
      ∃ u ∈ p :: ps, 0 < inter s e u.1 u.2.1 ∧
        (∀ v ∈ p :: ps, inter s e v.1 v.2.1 ≤ inter s e u.1 u.2.1) ∧
        storeReviewE (p :: ps) s e cm = some ⟨u.1, u.2.1, mappedNote s e ++ cm⟩) ∧
    ((∀ u ∈ p :: ps, inter s e u.1 u.2.1 = 0) →
      storeReviewE (p :: ps) s e cm = some ⟨p.1, p.2.1, noPatchNote s e ++ cm⟩) ∧
    (storeReviewE (p :: ps) s e cm).isSome = true := by
  refine ⟨fun hex => storeReviewE_keep hse hex, ?_, ?_, storeReviewE_isSome (by simp)⟩
  · intro hnc hov
    have hno : ∀ r ∈ (p :: ps).map (fun q => (q.1, q.2.1)),
        inter s e r.1 r.2 ≠ e - s + 1 := by
      rintro rr hrr heq
      obtain ⟨u, hu, huf⟩ := List.mem_map.mp hrr
      apply hnc
      refine ⟨u, hu, ?_⟩
      rw [← huf] at heq
      simp only at heq
      exact contains_of_inter_eq_len (by omega) heq
    obtain ⟨bs2, be2, mi2, hscan, hle, hbound, hbranch⟩ :=
      storeScan_no_contain_spec ((p :: ps).map (fun q => (q.1, q.2.1))) s e (-1) (-1) 0 hno
    obtain ⟨u0, hu0, hpos0⟩ := hov
    have hb0 := hbound (u0.1, u0.2.1) (List.mem_map_of_mem _ hu0)
    simp only at hb0
    have h0lt : 0 < mi2 := by omega
    rcases hbranch with ⟨h1, h2, h3⟩ | ⟨rr, hrr, h1, h2, h3, h4⟩
    · omega
    · obtain ⟨u, hu, huf⟩ := List.mem_map.mp hrr
      have hu1 : bs2 = u.1 := by rw [← huf] at h1; simpa using h1
      have hu2 : be2 = u.2.1 := by rw [← huf] at h2; simpa using h2
      have hu3 : mi2 = inter s e u.1 u.2.1 := by rw [← huf] at h3; simpa using h3
      refine ⟨u, hu, by omega, ?_, ?_⟩
      · intro v hv
        have := hbound (v.1, v.2.1) (List.mem_map_of_mem _ hv)
        simp only at this
        omega
      · simp only [storeReviewE]
        rw [hscan]
        have hbs : ¬ ((false, bs2, be2, mi2) : Bool × Int × Int × Int).1 = true := by simp
        have hnn1 := (hnn u hu).1
        have hnn2 := (hnn u hu).2
        simp only [Bool.false_eq_true, if_false]
        rw [if_pos ⟨by show bs2 ≠ -1; omega, by show be2 ≠ -1; omega⟩]
        simp [hu1, hu2]
  · intro hz
    have hno : ∀ r ∈ (p :: ps).map (fun q => (q.1, q.2.1)),
        inter s e r.1 r.2 ≠ e - s + 1 := by
      rintro rr hrr heq
      obtain ⟨u, hu, huf⟩ := List.mem_map.mp hrr
      have := hz u hu
      rw [← huf] at heq
      simp only at heq
      omega
    obtain ⟨bs2, be2, mi2, hscan, hle, hbound, hbranch⟩ :=
      storeScan_no_contain_spec ((p :: ps).map (fun q => (q.1, q.2.1))) s e (-1) (-1) 0 hno
    rcases hbranch with ⟨h1, h2, h3⟩ | ⟨rr, hrr, h1, h2, h3, h4⟩
    · subst h1
      subst h2
      subst h3
      simp only [storeReviewE]
      rw [hscan]
      simp
    · exfalso
      obtain ⟨u, hu, huf⟩ := List.mem_map.mp hrr
      have := hz u hu
      rw [← huf] at h3
      simp only at h3
      omega

/-- Witness for C2 at a concrete input: candidate `(6, 7)` fully inside the
single unit `(5, 10)` is kept unchanged. -/
theorem C2_flush_trichotomy_witness :
    storeReviewE [((5 : Int), (10 : Int), ([] : List Char))] 6 7 [] = some ⟨6, 7, []⟩ :=
  (C2_flush_trichotomy ((5 : Int), (10 : Int), ([] : List Char)) [] 6 7 [] (by decide)
    (by decide)).1 ⟨((5 : Int), (10 : Int), ([] : List Char)), by decide, by decide⟩

/-! ## Lemmas about mapM over Option and the line scan -/

theorem mapM_some_mem {α β : Type} (f : α → Option β) :
    ∀ (l : List α) (ys : List β) (y : β), l.mapM f = some ys → y ∈ ys →
      ∃ x ∈ l, f x = some y := by
  intro l
  induction l with
  | nil =>
    intro ys y h hy
    simp only [List.mapM_nil, pure, Option.some.injEq] at h
    subst h
    simp at hy
  | cons a t ih =>
    intro ys y h hy
    rw [List.mapM_cons] at h
    cases hfa : f a with
    | none => rw [hfa] at h; simp at h
    | some b =>
      rw [hfa] at h
      cases hft : t.mapM f with
      | none => rw [hft] at h; simp at h
      | some bs =>
        rw [hft] at h
        simp at h
        subst h
        rcases List.mem_cons.mp hy with rfl | hy'
        · exact ⟨a, List.mem_cons_self _ _, hfa⟩
        · obtain ⟨x, hx, hfx⟩ := ih bs y hft hy'
          exact ⟨x, List.mem_cons_of_mem _ hx, hfx⟩

theorem mapM_isSome {α β : Type} (f : α → Option β) :
    ∀ (l : List α), (∀ x ∈ l, (f x).isSome = true) → ∃ ys, l.mapM f = some ys := by
  intro l
  induction l with
  | nil => intro _; exact ⟨[], rfl⟩
  | cons a t ih =>
    intro hall
    have hfa := hall a (List.mem_cons_self _ _)
    obtain ⟨b, hb⟩ := Option.isSome_iff_exists.mp hfa
    obtain ⟨bs, hbs⟩ := ih (fun x hx => hall x (List.mem_cons_of_mem _ hx))
    refine ⟨b :: bs, ?_⟩
    rw [List.mapM_cons, hb, hbs]
    rfl

theorem scanLoop_collecting_ne_nil :
    ∀ (lines : List (List Char)) (s e : Int) (cm : List Char),
      scanLoop lines (some s) (some e) cm ≠ [] := by
  intro lines
  induction lines with
  | nil => intro s e cm; simp [scanLoop, flushCand]
  | cons l rest ih =>
    intro s e cm
    cases hfr : findRange l with
    | some v =>
      obtain ⟨s', e'⟩ := v
      simp [scanLoop, hfr, flushCand]
    | none =>
      by_cases hsep : jsTrim l = ("---").data
      · simp [scanLoop, hfr, hsep, flushCand]
      · simpa [scanLoop, hfr, hsep] using ih s e (cm ++ l ++ ['\n'])

theorem scanLoop_ne_nil_of_range :
    ∀ (lines : List (List Char)) (cs ce : Option Int) (cm : List Char),
      (∃ l ∈ lines, (findRange l).isSome = true) → scanLoop lines cs ce cm ≠ [] := by
  intro lines
  induction lines with
  | nil => rintro cs ce cm ⟨l, hl, _⟩; simp at hl
  | cons l rest ih =>
    rintro cs ce cm ⟨x, hx, hxr⟩
    cases hfr : findRange l with
    | some v =>
      obtain ⟨s', e'⟩ := v
      simp only [scanLoop, hfr]
      intro hap
      exact scanLoop_collecting_ne_nil rest s' e' [] (List.append_eq_nil.mp hap).2
    | none =>
      have hx' : x ∈ rest := by
        rcases List.mem_cons.mp hx with rfl | h
        · rw [hfr] at hxr; simp at hxr
        · exact h
      by_cases hsep : jsTrim l = ("---").data
      · simp only [scanLoop, hfr, if_pos hsep]
        intro hap
        exact ih none none [] ⟨x, hx', hxr⟩ (List.append_eq_nil.mp hap).2
      · cases hcol : cs.isSome && ce.isSome with
        | true =>
          simpa [scanLoop, hfr, hsep, hcol] using ih cs ce (cm ++ l ++ ['\n']) ⟨x, hx', hxr⟩
        | false =>
          simpa [scanLoop, hfr, hsep, hcol] using ih cs ce cm ⟨x, hx', hxr⟩

/-- Counterexample to claim C1 as stated: with the single known unit
`(1, 10)` the response `2-3:` produces a comment whose range `(2, 3)` is
kept (fully contained), and `(2, 3)` equals no unit's range. -/
theorem C1_counterexample :
    parseReviewE (("2-3:\nhi").data) [((1 : Int), (10 : Int), ([] : List Char))] =
      some [⟨2, 3, ("hi\n").data⟩] ∧
    ¬ (((2 : Int), (3 : Int)) = ((1 : Int), (10 : Int))) := by
  constructor
  · decide
  · decide

/-- Claim C1 as amended: for a non-empty patch list, every comment returned
by `parseReview` has its range contained within at least one known unit's
range (and a remapped comment's range equals that unit's range exactly). -/
theorem C1_range_containment (response : List Char)
    (patches : List (Int × Int × List Char)) (rs : List Review) (r : Review)
    (hne : patches ≠ []) (h : parseReviewE response patches = some rs) (hr : r ∈ rs) :
    ∃ u ∈ patches, u.1 ≤ r.startLine ∧ r.endLine ≤ u.2.1 := by
  obtain ⟨c, _, hfc⟩ := mapM_some_mem _ _ rs r h hr
  exact storeReviewE_some_contained hne hfc

/-- Witness for C1 (amended) at a concrete input. -/
theorem C1_range_containment_witness :
    ∃ u ∈ [((1 : Int), (10 : Int), ([] : List Char))],
      u.1 ≤ (Review.mk 2 3 (("hi\n").data)).startLine ∧
      (Review.mk 2 3 (("hi\n").data)).endLine ≤ u.2.1 :=
  C1_range_containment (("2-3:\nhi").data) [((1 : Int), (10 : Int), ([] : List Char))]
    [⟨2, 3, ("hi\n").data⟩] ⟨2, 3, ("hi\n").data⟩ (by decide) (by decide) (by decide)

/-- Claim C9: `parseReview` is total exactly when the known-units list is
non-empty.  With non-empty patches every flush succeeds, so the whole parse
returns a result; with empty patches any response holding at least one
range-opening line drives some flushed comment into the no-overlap branch,
whose `patches[0]` access is out of bounds (modelled as `none`). -/
theorem C9_empty_patches_unsafe (response : List Char)
    (patches : List (Int × Int × List Char)) :
    (patches ≠ [] → ∃ rs, parseReviewE response patches = some rs) ∧
    ((∃ l ∈ splitOnNl (sanitizeResponse (jsTrim response)), (findRange l).isSome = true) →
      parseReviewE response [] = none) := by
  constructor
  · intro hne
    exact mapM_isSome _ _ (fun c _ => storeReviewE_isSome hne)
  · intro hex
    unfold parseReviewE
    have hne2 := scanLoop_ne_nil_of_range _ none none [] hex
    cases hc : scanLoop (splitOnNl (sanitizeResponse (jsTrim response))) none none [] with
    | nil => exact absurd hc hne2
    | cons c rest =>
      rw [List.mapM_cons]
      simp [storeReviewE_nil]

/-- Witness for C9 at a concrete input: the response `1-2:` parses with a
non-empty patch list and throws (models `none`) with the empty one. -/
theorem C9_empty_patches_unsafe_witness :
    (∃ rs, parseReviewE (("1-2:\nok").data) [((1 : Int), (5 : Int), ([] : List Char))] = some rs) ∧
    parseReviewE (("1-2:\nok").data) [] = none :=
  ⟨( C9_empty_patches_unsafe (("1-2:\nok").data)
      [((1 : Int), (5 : Int), ([] : List Char))]).1 (by decide),
   ( C9_empty_patches_unsafe (("1-2:\nok").data) []).2 (by decide)⟩

/-! ## Lemmas about the code-block sanitizer -/

theorem splitFirstAt_cons (needle : List Char) (c : Char) (rest : List Char) :
    splitFirstAt needle (c :: rest) =
      if needle.isPrefixOf (c :: rest) then some ([], (c :: rest).drop needle.length)
      else
        match splitFirstAt needle rest with
        | some (p, q) => some (c :: p, q)
        | none => none := rfl

theorem splitFirstAt_of_prefix {needle s : List Char} (hp : needle <+: s) (hs : s ≠ []) :
    splitFirstAt needle s = some ([], s.drop needle.length) := by
  cases s with
  | nil => exact absurd rfl hs
  | cons c rest =>
    rw [splitFirstAt_cons, if_pos (List.isPrefixOf_iff_prefix.mpr hp)]

theorem splitFirstAt_eq (needle : List Char) :
    ∀ (s p q : List Char), splitFirstAt needle s = some (p, q) → s = p ++ needle ++ q := by
  intro s
  induction s with
  | nil => intro p q h; simp [splitFirstAt] at h
  | cons c rest ih =>
    intro p q h
    by_cases hp : needle.isPrefixOf (c :: rest)
    · rw [splitFirstAt_cons, if_pos hp] at h
      simp only [Option.some.injEq, Prod.mk.injEq] at h
      obtain ⟨h1, h2⟩ := h
      subst h1
      subst h2
      obtain ⟨t, ht⟩ := List.isPrefixOf_iff_prefix.mp hp
      rw [← ht, List.drop_left]
      simp
    · rw [splitFirstAt_cons, if_neg hp] at h
      cases hrec : splitFirstAt needle rest with
      | none => rw [hrec] at h; simp at h
      | some pq =>
        obtain ⟨p', q'⟩ := pq
        rw [hrec] at h
        simp only [Option.some.injEq, Prod.mk.injEq] at h
        obtain ⟨h1, h2⟩ := h
        subst h1
        subst h2
        have := ih p' q' hrec
        simp [this]

/-- At the first occurrence of `needle` (no occurrence starts earlier, which
is exactly: `needle` is not an infix of `p ++ needle` with its last
character removed), `splitFirstAt` splits off `p`. -/
theorem splitFirstAt_first_occ (needle : List Char) (hne : needle ≠ []) :
    ∀ (p q : List Char), ¬ needle <:+: (p ++ needle).dropLast →
      splitFirstAt needle (p ++ needle ++ q) = some (p, q) := by
  intro p
  induction p with
  | nil =>
    intro q _
    have hnn : ([] : List Char) ++ needle ++ q ≠ [] := by
      simp [List.append_eq_nil, hne]
    have h1 := splitFirstAt_of_prefix
      (show needle <+: [] ++ needle ++ q by simp [List.prefix_append]) hnn
    rw [h1]
    simp [List.drop_left]
  | cons a p' ih =>
    intro q hinf
    have hlen : needle.length ≤ ((a :: p') ++ needle).length - 1 := by
      simp [List.length_append]
    have hpre : ¬ needle <+: ((a :: p') ++ needle ++ q) := by
      intro hp
      apply hinf
      apply List.IsPrefix.isInfix
      rw [List.prefix_iff_eq_take]
      rw [List.dropLast_eq_take, List.take_take]
      have hmin : needle.length ⊓ (((a :: p') ++ needle).length - 1) = needle.length := by
        simp only [inf_eq_left]
        exact hlen
      rw [hmin]
      have h1 : List.take needle.length (((a :: p') ++ needle) ++ q) =
          List.take needle.length ((a :: p') ++ needle) := by
        apply List.take_append_of_le_length
        simp [List.length_append]
        omega
      rw [← h1]
      exact List.prefix_iff_eq_take.mp hp
    have hpreb : needle.isPrefixOf (a :: (p' ++ needle ++ q)) = false := by
      rw [← Bool.not_eq_true]
      intro hb
      exact hpre (by simpa [List.cons_append, List.append_assoc] using
        List.isPrefixOf_iff_prefix.mp hb)
    have hinf' : ¬ needle <:+: (p' ++ needle).dropLast := by
      intro hi
      apply hinf
      have hpn : p' ++ needle ≠ [] := by
        intro hx
        exact hne ((List.append_eq_nil.mp hx).2)
      rw [List.cons_append, List.dropLast_cons_of_ne_nil hpn]
      exact List.infix_cons hi
    have hrec := ih q hinf'
    simp only [List.cons_append]
    rw [splitFirstAt_cons, hpreb]
    simp only [Bool.false_eq_true, if_false]
    rw [hrec]

theorem fenceOpen_ne_nil (label : List Char) : fenceOpen label ≠ [] := by
  simp [fenceOpen, fenceClose]

theorem sanitizeCBFuel_step_none {label c : List Char} {f : Nat}
    (h : splitFirstAt (fenceOpen label) c = none) :
    sanitizeCBFuel label (f + 1) c = c := by
  simp [sanitizeCBFuel, h]

theorem sanitizeCBFuel_step_unclosed {label c pre rest : List Char} {f : Nat}
    (h1 : splitFirstAt (fenceOpen label) c = some (pre, rest))
    (h2 : splitFirstAt fenceClose rest = none) :
    sanitizeCBFuel label (f + 1) c = c := by
  simp [sanitizeCBFuel, h1, h2]

theorem sanitizeCBFuel_step_closed {label c pre rest block tail : List Char} {f : Nat}
    (h1 : splitFirstAt (fenceOpen label) c = some (pre, rest))
    (h2 : splitFirstAt fenceClose rest = some (block, tail)) :
    sanitizeCBFuel label (f + 1) c =
      pre ++ fenceOpen label ++ stripLineNums block ++ fenceClose ++
        sanitizeCBFuel label f tail := by
  simp [sanitizeCBFuel, h1, h2]

theorem sanitizeCBFuel_fuel_irrelevant (label : List Char) :
    ∀ (f1 f2 : Nat) (c : List Char), c.length < f1 → c.length < f2 →
      sanitizeCBFuel label f1 c = sanitizeCBFuel label f2 c := by
  intro f1
  induction f1 with
  | zero => intro f2 c h1 _; omega
  | succ f1 ih =>
    intro f2 c h1 h2
    cases f2 with
    | zero => omega
    | succ f2 =>
      cases ho : splitFirstAt (fenceOpen label) c with
      | none => rw [sanitizeCBFuel_step_none ho, sanitizeCBFuel_step_none ho]
      | some pr =>
        obtain ⟨pre, rest⟩ := pr
        cases hc : splitFirstAt fenceClose rest with
        | none => rw [sanitizeCBFuel_step_unclosed ho hc, sanitizeCBFuel_step_unclosed ho hc]
        | some bt =>
          obtain ⟨block, tail⟩ := bt
          rw [sanitizeCBFuel_step_closed ho hc, sanitizeCBFuel_step_closed ho hc]
          have hco := splitFirstAt_eq _ c pre rest ho
          have hcc := splitFirstAt_eq _ rest block tail hc
          have htail : tail.length < c.length := by
            rw [hco, hcc]
            simp [List.length_append, fenceOpen, fenceClose]
            omega
          rw [ih f2 tail (by omega) (by omega)]

/-- Claim C10: the code-block sanitizer strips `<digits>: ` line prefixes
only inside fenced blocks that are both opened with the given label and
later closed.  A text with no opener is returned unchanged; a text whose
opener has no subsequent closer is returned completely unchanged from start
to end; and for a closed block the text before the opener, the fences
themselves, and the text after the closer (recursively sanitized) are
preserved verbatim — only the enclosed block is stripped. -/
theorem C10_sanitize_only_closed_blocks (label c pre rest block tail : List Char) :
    (splitFirstAt (fenceOpen label) c = none → sanitizeCodeBlock label c = c) ∧
    (splitFirstAt (fenceOpen label) c = some (pre, rest) →
      splitFirstAt fenceClose rest = none → sanitizeCodeBlock label c = c) ∧
    (¬ (fenceOpen label) <:+: ((pre ++ fenceOpen label).dropLast) →
      ¬ fenceClose <:+: ((block ++ fenceClose).dropLast) →
      sanitizeCodeBlock label (pre ++ fenceOpen label ++ block ++ fenceClose ++ tail) =
        pre ++ fenceOpen label ++ stripLineNums block ++ fenceClose ++
          sanitizeCodeBlock label tail) := by
  refine ⟨?_, ?_, ?_⟩
  · intro h
    exact sanitizeCBFuel_step_none h
  · intro h1 h2
    exact sanitizeCBFuel_step_unclosed h1 h2
  · intro hop hcl
    have h1 : splitFirstAt (fenceOpen label)
        (pre ++ fenceOpen label ++ (block ++ fenceClose ++ tail)) =
        some (pre, block ++ fenceClose ++ tail) :=
      splitFirstAt_first_occ (fenceOpen label) (fenceOpen_ne_nil label) pre
        (block ++ fenceClose ++ tail) hop
    have h2 : splitFirstAt fenceClose (block ++ fenceClose ++ tail) = some (block, tail) :=
      splitFirstAt_first_occ fenceClose (by simp [fenceClose]) block tail hcl
    have hassoc : pre ++ fenceOpen label ++ block ++ fenceClose ++ tail =
        pre ++ fenceOpen label ++ (block ++ fenceClose ++ tail) := by
      simp [List.append_assoc]
    rw [hassoc]
    have htail : tail.length <
        (pre ++ fenceOpen label ++ (block ++ fenceClose ++ tail)).length := by
      simp [List.length_append, fenceOpen, fenceClose]
      omega
    rw [show sanitizeCodeBlock label (pre ++ fenceOpen label ++ (block ++ fenceClose ++ tail)) =
      sanitizeCBFuel label ((pre ++ fenceOpen label ++ (block ++ fenceClose ++ tail)).length + 1)
        (pre ++ fenceOpen label ++ (block ++ fenceClose ++ tail)) from rfl]
    rw [sanitizeCBFuel_step_closed h1 h2]
    rw [sanitizeCBFuel_fuel_irrelevant label _ (tail.length + 1) tail (by omega) (by omega)]
    simp [List.append_assoc, sanitizeCodeBlock]

/-- Witness for C10 at a concrete input: one closed `diff` block is
stripped, the text around it is untouched, and the trailing unclosed opener
leaves its suffix unchanged. -/
theorem C10_sanitize_only_closed_blocks_witness :
    sanitizeCodeBlock (("diff").data)
        ((("a ").data) ++ fenceOpen (("diff").data) ++ (("\n1: x\n").data) ++ fenceClose ++
          (("b").data)) =
      (("a ").data) ++ fenceOpen (("diff").data) ++ stripLineNums (("\n1: x\n").data) ++
        fenceClose ++ sanitizeCodeBlock (("diff").data) (("b").data) :=
  (C10_sanitize_only_closed_blocks (("diff").data) [] (("a ").data) []
    (("\n1: x\n").data) (("b").data)).2.2 (by decide) (by decide)

/-! ## Claim C6: the line scanner

The code's range matcher `findRange` (the leftmost-offset regex scan) is
proved equal to `specRangeLine` (the suffix characterization of the amended
claim), and the nullable-variable scanner equal to the explicit two-state
machine. -/

theorem ws_not_digit {c : Char} (h : isJsSpace c = true) : Char.isDigit c = false := by
  simp only [isJsSpace, Bool.or_eq_true, beq_iff_eq, or_assoc] at h
  rcases h with rfl | rfl | rfl | rfl | rfl | rfl | rfl | rfl | rfl | rfl | rfl | rfl | rfl |
    rfl | rfl | rfl | rfl | rfl | rfl | rfl | rfl | rfl | rfl | rfl | rfl <;> decide

theorem colon_not_ws : isJsSpace ':' = false := by decide

theorem colon_not_digit : Char.isDigit ':' = false := by decide

theorem dash_not_digit : Char.isDigit '-' = false := by decide

theorem takeWhile_all_append {p : Char → Bool} {d : List Char}
    (hall : ∀ c ∈ d, p c = true) {x : Char} (hx : p x = false) (r : List Char) :
    (d ++ x :: r).takeWhile p = d := by
  induction d with
  | nil => simp [List.takeWhile_cons, hx]
  | cons a t ih =>
    have ha := hall a (List.mem_cons_self _ _)
    simp [List.takeWhile_cons, ha, ih (fun c hc => hall c (List.mem_cons_of_mem _ hc))]

theorem dropWhile_all_append {p : Char → Bool} {d : List Char}
    (hall : ∀ c ∈ d, p c = true) {x : Char} (hx : p x = false) (r : List Char) :
    (d ++ x :: r).dropWhile p = x :: r := by
  induction d with
  | nil => simp [List.dropWhile_cons, hx]
  | cons a t ih =>
    have ha := hall a (List.mem_cons_self _ _)
    simp [List.dropWhile_cons, ha, ih (fun c hc => hall c (List.mem_cons_of_mem _ hc))]

theorem dropWhile_all_prefix {p : Char → Bool} {w : List Char}
    (hall : ∀ c ∈ w, p c = true) (t : List Char) :
    (w ++ t).dropWhile p = t.dropWhile p := by
  induction w with
  | nil => simp
  | cons a u ih =>
    have ha := hall a (List.mem_cons_self _ _)
    simp [List.dropWhile_cons, ha, ih (fun c hc => hall c (List.mem_cons_of_mem _ hc))]

theorem span_all_append {p : Char → Bool} {d : List Char}
    (hall : ∀ c ∈ d, p c = true) {x : Char} (hx : p x = false) (r : List Char) :
    (d ++ x :: r).span p = (d, x :: r) := by
  rw [List.span_eq_take_drop, takeWhile_all_append hall hx, dropWhile_all_append hall hx]

theorem tryRangeAt_step {l : List Char} {c1 : Char} {t1 X : List Char}
    (hs : l.span Char.isDigit = (c1 :: t1, '-' :: X)) :
    tryRangeAt l = rangeSuffix (c1 :: t1) X := by
  unfold tryRangeAt
  rw [hs]
  rfl

theorem rangeSuffix_step {r2 : List Char} {d1 : List Char} {c2 : Char} {t2 Y : List Char}
    (hs : r2.span Char.isDigit = (c2 :: t2, ':' :: Y)) :
    rangeSuffix d1 r2 =
      if Y.all isJsSpace then some ((valOfDigits d1 : Int), (valOfDigits (c2 :: t2) : Int))
      else none := by
  unfold rangeSuffix
  rw [hs]
  rfl

/-- Evaluation of `tryRangeAt` on a well-formed tail. -/
theorem tryRangeAt_eval {d1 d2 w : List Char}
    (h1 : ∀ c ∈ d1, Char.isDigit c = true) (hne1 : d1 ≠ [])
    (h2 : ∀ c ∈ d2, Char.isDigit c = true) (hne2 : d2 ≠ [])
    (hw : ∀ c ∈ w, isJsSpace c = true) :
    tryRangeAt (d1 ++ '-' :: (d2 ++ ':' :: w)) =
      some ((valOfDigits d1 : Int), (valOfDigits d2 : Int)) := by
  cases d1 with
  | nil => exact absurd rfl hne1
  | cons c1 t1 =>
    cases d2 with
    | nil => exact absurd rfl hne2
    | cons c2 t2 =>
      rw [tryRangeAt_step (span_all_append h1 dash_not_digit _),
        rangeSuffix_step (span_all_append h2 colon_not_digit _),
        if_pos (List.all_eq_true.mpr hw)]

theorem span_parts {l d r : List Char} {p : Char → Bool} (h : l.span p = (d, r)) :
    l = d ++ r ∧ (∀ c ∈ d, p c = true) := by
  rw [List.span_eq_take_drop] at h
  obtain ⟨h1, h2⟩ := Prod.mk.injEq _ _ _ _ ▸ h
  constructor
  · rw [← h1, ← h2, List.takeWhile_append_dropWhile]
  · intro c hc
    rw [← h1] at hc
    exact List.mem_takeWhile_imp hc

theorem tryRangeAt_decomp {l : List Char} {a b : Int} (h : tryRangeAt l = some (a, b)) :
    ∃ d1 d2 w, l = d1 ++ '-' :: (d2 ++ ':' :: w) ∧ d1 ≠ [] ∧ d2 ≠ [] ∧
      (∀ c ∈ d1, Char.isDigit c = true) ∧ (∀ c ∈ d2, Char.isDigit c = true) ∧
      (∀ c ∈ w, isJsSpace c = true) ∧ a = (valOfDigits d1 : Int) ∧ b = (valOfDigits d2 : Int) := by
  unfold tryRangeAt at h
  split at h
  · exact absurd h (by simp)
  · next x d1 r2 hne1 heq =>
    obtain ⟨hl, hd1⟩ := span_parts heq
    unfold rangeSuffix at h
    split at h
    · exact absurd h (by simp)
    · next y d2 r4 hne2 heq2 =>
      obtain ⟨hr2, hd2⟩ := span_parts heq2
      split at h
      · next hall =>
        simp only [Option.some.injEq, Prod.mk.injEq] at h
        refine ⟨d1, d2, r4, ?_, fun hx => hne1 hx, fun hx => hne2 hx, hd1, hd2,
          List.all_eq_true.mp hall, h.1.symm, h.2.symm⟩
        rw [hl, hr2]
      · exact absurd h (by simp)
    · exact absurd h (by simp)
  · exact absurd h (by simp)

theorem takeWhile_of_all {p : Char → Bool} {d : List Char}
    (hall : ∀ c ∈ d, p c = true) : d.takeWhile p = d := by
  induction d with
  | nil => rfl
  | cons a t ih =>
    have ha := hall a (List.mem_cons_self _ _)
    simp [List.takeWhile_cons, ha, ih (fun c hc => hall c (List.mem_cons_of_mem _ hc))]

theorem dropWhile_of_all {p : Char → Bool} {d : List Char}
    (hall : ∀ c ∈ d, p c = true) : d.dropWhile p = [] := by
  induction d with
  | nil => rfl
  | cons a t ih =>
    have ha := hall a (List.mem_cons_self _ _)
    simp [List.dropWhile_cons, ha, ih (fun c hc => hall c (List.mem_cons_of_mem _ hc))]

theorem span_of_all {p : Char → Bool} {d : List Char} (hall : ∀ c ∈ d, p c = true) :
    d.span p = (d, []) := by
  rw [List.span_eq_take_drop, takeWhile_of_all hall, dropWhile_of_all hall]

theorem specRangeLine_step {l r1 : List Char} (h : l.reverse.dropWhile isJsSpace = ':' :: r1) :
    specRangeLine l = specAfterColon r1 := by
  unfold specRangeLine
  rw [h]
  rfl

theorem specAfterColon_step {r1 : List Char} {c : Char} {t X : List Char}
    (h : r1.span Char.isDigit = (c :: t, '-' :: X)) :
    specAfterColon r1 = specAfterDash (c :: t) X := by
  unfold specAfterColon
  rw [h]
  rfl

theorem specAfterDash_step {r3 d2r : List Char} {c : Char} {t Y : List Char}
    (h : r3.span Char.isDigit = (c :: t, Y)) :
    specAfterDash d2r r3 =
      if specBoundary Y then
        some ((valOfDigits (c :: t).reverse : Int), (valOfDigits d2r.reverse : Int))
      else none := by
  unfold specAfterDash
  rw [h]

/-- Evaluation of `specRangeLine` on a line made of an arbitrary prefix with
a valid boundary, the two digit runs, the colon and trailing whitespace. -/
theorem specRangeLine_eval {A d1 d2 w : List Char}
    (hA : specBoundary A.reverse = true)
    (h1 : ∀ c ∈ d1, Char.isDigit c = true) (hne1 : d1 ≠ [])
    (h2 : ∀ c ∈ d2, Char.isDigit c = true) (hne2 : d2 ≠ [])
    (hw : ∀ c ∈ w, isJsSpace c = true) :
    specRangeLine (A ++ (d1 ++ '-' :: (d2 ++ ':' :: w))) =
      some ((valOfDigits d1 : Int), (valOfDigits d2 : Int)) := by
  have hrev : (A ++ (d1 ++ '-' :: (d2 ++ ':' :: w))).reverse =
      w.reverse ++ (':' :: (d2.reverse ++ ('-' :: (d1.reverse ++ A.reverse)))) := by
    simp [List.reverse_append, List.append_assoc]
  have hdrop : (A ++ (d1 ++ '-' :: (d2 ++ ':' :: w))).reverse.dropWhile isJsSpace =
      ':' :: (d2.reverse ++ ('-' :: (d1.reverse ++ A.reverse))) := by
    rw [hrev, dropWhile_all_prefix (fun c hc => hw c (List.mem_reverse.mp hc))]
    rw [List.dropWhile_cons]
    simp [colon_not_ws]
  rw [specRangeLine_step hdrop]
  have hspan2 : (d2.reverse ++ ('-' :: (d1.reverse ++ A.reverse))).span Char.isDigit =
      (d2.reverse, '-' :: (d1.reverse ++ A.reverse)) :=
    span_all_append (fun c hc => h2 c (List.mem_reverse.mp hc)) dash_not_digit _
  cases hd2r : d2.reverse with
  | nil => exact absurd (List.reverse_eq_nil_iff.mp hd2r) hne2
  | cons c2 t2 =>
    rw [hd2r] at hspan2
    rw [specAfterColon_step hspan2]
    have hspan1 : (d1.reverse ++ A.reverse).span Char.isDigit = (d1.reverse, A.reverse) := by
      cases hAr : A.reverse with
      | nil =>
        simp only [List.append_nil]
        exact span_of_all (fun c hc => h1 c (List.mem_reverse.mp hc))
      | cons ch A2 =>
        rw [hAr] at hA
        have hch : isJsSpace ch = true := by simpa [specBoundary] using hA
        exact span_all_append (fun c hc => h1 c (List.mem_reverse.mp hc))
          (ws_not_digit hch) _
    cases hd1r : d1.reverse with
    | nil => exact absurd (List.reverse_eq_nil_iff.mp hd1r) hne1
    | cons c1 t1 =>
      rw [hd1r] at hspan1
      rw [specAfterDash_step hspan1, if_pos hA]
      rw [← hd1r, ← hd2r, List.reverse_reverse, List.reverse_reverse]

theorem spec_of_tryRangeAt_pre {pre l : List Char} {a b : Int}
    (hb : specBoundary pre.reverse = true) (h : tryRangeAt l = some (a, b)) :
    specRangeLine (pre ++ l) = some (a, b) := by
  obtain ⟨d1, d2, w, hl, hne1, hne2, hd1, hd2, hw, ha, hbv⟩ := tryRangeAt_decomp h
  subst hl
  subst ha
  subst hbv
  exact specRangeLine_eval hb hd1 hne1 hd2 hne2 hw

theorem findRangeAux_nil : findRangeAux ([] : List Char) = none := rfl

theorem findRangeAux_cons_some {c : Char} {rest : List Char} {v : Int × Int}
    (h : (if isJsSpace c = true then tryRangeAt rest else none) = some v) :
    findRangeAux (c :: rest) = some v := by
  show (match (if isJsSpace c = true then tryRangeAt rest else none) with
        | some v => some v
        | none => findRangeAux rest) = some v
  rw [h]

theorem findRangeAux_cons_none {c : Char} {rest : List Char}
    (h : (if isJsSpace c = true then tryRangeAt rest else none) = none) :
    findRangeAux (c :: rest) = findRangeAux rest := by
  show (match (if isJsSpace c = true then tryRangeAt rest else none) with
        | some v => some v
        | none => findRangeAux rest) = findRangeAux rest
  rw [h]

theorem spec_of_findRangeAux :
    ∀ (t : List Char) (a b : Int), findRangeAux t = some (a, b) →
      ∀ pre : List Char, specRangeLine (pre ++ t) = some (a, b) := by
  intro t
  induction t with
  | nil =>
    intro a b h
    rw [findRangeAux_nil] at h
    exact Option.noConfusion h
  | cons c rest ih =>
    intro a b h pre
    by_cases hws : isJsSpace c = true
    · cases htr : tryRangeAt rest with
      | some v =>
        obtain ⟨a2, b2⟩ := v
        rw [findRangeAux_cons_some (by rw [if_pos hws, htr])] at h
        have h2 : a2 = a ∧ b2 = b := by simpa using h
        obtain ⟨rfl, rfl⟩ := h2
        have hb : specBoundary (pre ++ [c]).reverse = true := by
          simp [List.reverse_append, specBoundary, hws]
        have hspec := spec_of_tryRangeAt_pre hb htr
        rw [List.append_assoc] at hspec
        simpa using hspec
      | none =>
        rw [findRangeAux_cons_none (by rw [if_pos hws, htr])] at h
        have := ih a b h (pre ++ [c])
        rw [List.append_assoc] at this
        simpa using this
    · rw [findRangeAux_cons_none (by rw [if_neg hws])] at h
      have := ih a b h (pre ++ [c])
      rw [List.append_assoc] at this
      simpa using this

theorem spec_of_findRange {l : List Char} {a b : Int} (h : findRange l = some (a, b)) :
    specRangeLine l = some (a, b) := by
  unfold findRange at h
  cases htr : tryRangeAt l with
  | some v =>
    obtain ⟨a2, b2⟩ := v
    rw [htr] at h
    simp only [Option.some.injEq, Prod.mk.injEq] at h
    obtain ⟨rfl, rfl⟩ : a2 = a ∧ b2 = b := h
    have := spec_of_tryRangeAt_pre
      (show specBoundary ([] : List Char).reverse = true from rfl) htr
    simpa using this
  | none =>
    rw [htr] at h
    have := spec_of_findRangeAux l a b h []
    simpa using this

theorem specRangeLine_decomp {l : List Char} {a b : Int} (h : specRangeLine l = some (a, b)) :
    ∃ A d1 d2 w, l = A ++ (d1 ++ '-' :: (d2 ++ ':' :: w)) ∧
      specBoundary A.reverse = true ∧ d1 ≠ [] ∧ d2 ≠ [] ∧
      (∀ c ∈ d1, Char.isDigit c = true) ∧ (∀ c ∈ d2, Char.isDigit c = true) ∧
      (∀ c ∈ w, isJsSpace c = true) ∧ a = (valOfDigits d1 : Int) ∧ b = (valOfDigits d2 : Int) := by
  unfold specRangeLine at h
  split at h
  · next r1 heq =>
    have hlrev : l.reverse = l.reverse.takeWhile isJsSpace ++ (':' :: r1) := by
      have hx := List.takeWhile_append_dropWhile isJsSpace l.reverse
      rw [heq] at hx
      exact hx.symm
    have hWall : ∀ c ∈ (l.reverse.takeWhile isJsSpace).reverse, isJsSpace c = true :=
      fun c hc => List.mem_takeWhile_imp (List.mem_reverse.mp hc)
    unfold specAfterColon at h
    split at h
    · exact absurd h (by simp)
    · next x d2r r3 hne2 heq2 =>
      obtain ⟨hr1, hd2r⟩ := span_parts heq2
      unfold specAfterDash at h
      split at h
      · exact absurd h (by simp)
      · next y d1r r4 hne1 heq3 =>
        obtain ⟨hr3, hd1r⟩ := span_parts heq3
        split at h
        · next hbound =>
          simp only [Option.some.injEq, Prod.mk.injEq] at h
          refine ⟨r4.reverse, d1r.reverse, d2r.reverse,
            (l.reverse.takeWhile isJsSpace).reverse, ?_, ?_, ?_, ?_, ?_, ?_, hWall,
            h.1.symm, h.2.symm⟩
          · have hall : l.reverse =
                l.reverse.takeWhile isJsSpace ++ (':' :: (d2r ++ '-' :: (d1r ++ r4))) :=
              calc l.reverse = l.reverse.takeWhile isJsSpace ++ (':' :: r1) := hlrev
                _ = l.reverse.takeWhile isJsSpace ++ (':' :: (d2r ++ '-' :: (d1r ++ r4))) := by
                    rw [hr1, hr3]
            have hrev2 : (r4.reverse ++ (d1r.reverse ++ '-' :: (d2r.reverse ++ ':' ::
                (l.reverse.takeWhile isJsSpace).reverse))).reverse =
                l.reverse.takeWhile isJsSpace ++ (':' :: (d2r ++ '-' :: (d1r ++ r4))) := by
              simp [List.reverse_append, List.append_assoc]
            have hfin : l.reverse = (r4.reverse ++ (d1r.reverse ++ '-' :: (d2r.reverse ++ ':' ::
                (l.reverse.takeWhile isJsSpace).reverse))).reverse := by
              rw [hrev2]
              exact hall
            have := congrArg List.reverse hfin
            simpa using this
          · rw [List.reverse_reverse]
            exact hbound
          · simp only [ne_eq, List.reverse_eq_nil_iff]
            exact fun hx => hne1 hx
          · simp only [ne_eq, List.reverse_eq_nil_iff]
            exact fun hx => hne2 hx
          · exact fun c hc => hd1r c (List.mem_reverse.mp hc)
          · exact fun c hc => hd2r c (List.mem_reverse.mp hc)
        · exact absurd h (by simp)
    · exact absurd h (by simp)
  · exact absurd h (by simp)

theorem findRangeAux_hit :
    ∀ (A : List Char) (ch : Char) (rest : List Char), isJsSpace ch = true →
      (tryRangeAt rest).isSome = true → (findRangeAux (A ++ ch :: rest)).isSome = true := by
  intro A
  induction A with
  | nil =>
    intro ch rest hch htr
    obtain ⟨v, hv⟩ := Option.isSome_iff_exists.mp htr
    rw [List.nil_append, findRangeAux_cons_some (by rw [if_pos hch, hv])]
    rfl
  | cons a A2 ih =>
    intro ch rest hch htr
    rw [List.cons_append]
    cases hco : (if isJsSpace a = true then tryRangeAt (A2 ++ ch :: rest) else none) with
    | some v =>
      rw [findRangeAux_cons_some hco]
      rfl
    | none =>
      rw [findRangeAux_cons_none hco]
      exact ih ch rest hch htr

theorem findRange_isSome_of_spec {l : List Char} {a b : Int}
    (h : specRangeLine l = some (a, b)) : (findRange l).isSome = true := by
  obtain ⟨A, d1, d2, w, hl, hb, hne1, hne2, hd1, hd2, hw, _, _⟩ := specRangeLine_decomp h
  subst hl
  unfold findRange
  cases htr : tryRangeAt (A ++ (d1 ++ '-' :: (d2 ++ ':' :: w))) with
  | some v => simp
  | none =>
    cases hAr : A.reverse with
    | nil =>
      exfalso
      have hA : A = [] := by
        have := congrArg List.reverse hAr
        simpa using this
      subst hA
      rw [List.nil_append] at htr
      rw [tryRangeAt_eval hd1 hne1 hd2 hne2 hw] at htr
      exact Option.noConfusion htr
    | cons ch A2 =>
      have hch : isJsSpace ch = true := by
        rw [hAr] at hb
        simpa [specBoundary] using hb
      have hA : A = A2.reverse ++ [ch] := by
        have := congrArg List.reverse hAr
        simpa using this
      have hsome : (tryRangeAt (d1 ++ '-' :: (d2 ++ ':' :: w))).isSome = true := by
        rw [tryRangeAt_eval hd1 hne1 hd2 hne2 hw]
        rfl
      have hhit := findRangeAux_hit A2.reverse ch (d1 ++ '-' :: (d2 ++ ':' :: w)) hch hsome
      have hshape : A ++ (d1 ++ '-' :: (d2 ++ ':' :: w)) =
          A2.reverse ++ ch :: (d1 ++ '-' :: (d2 ++ ':' :: w)) := by
        rw [hA, List.append_assoc]
        rfl
      rw [hshape]
      simpa using hhit

/-- The code's range-line matcher agrees with the amended claim's suffix
characterization on every line. -/
theorem findRange_eq_specRangeLine (l : List Char) : findRange l = specRangeLine l := by
  cases hs : specRangeLine l with
  | some v =>
    obtain ⟨a, b⟩ := v
    have hsome := findRange_isSome_of_spec hs
    obtain ⟨u, hu⟩ := Option.isSome_iff_exists.mp hsome
    obtain ⟨a2, b2⟩ := u
    have hsp := spec_of_findRange hu
    rw [hs] at hsp
    rw [hu]
    exact hsp.symm
  | none =>
    cases hf : findRange l with
    | none => rfl
    | some u =>
      obtain ⟨a2, b2⟩ := u
      have := spec_of_findRange hf
      rw [hs] at this
      exact Option.noConfusion this

theorem flushCand_eq_specFlush (cs ce : Option Int) (cm : List Char) :
    flushCand cs ce cm = specFlush (modeOf cs ce cm) := by
  cases cs <;> cases ce <;> rfl

theorem scanLoop_eq_specScan :
    ∀ (lines : List (List Char)) (cs ce : Option Int) (cm : List Char),
      scanLoop lines cs ce cm = specScan lines (modeOf cs ce cm) := by
  intro lines
  induction lines with
  | nil =>
    intro cs ce cm
    simp only [scanLoop, specScan]
    exact flushCand_eq_specFlush cs ce cm
  | cons l rest ih =>
    intro cs ce cm
    have hfr := findRange_eq_specRangeLine l
    cases hs : specRangeLine l with
    | some v =>
      obtain ⟨s, e⟩ := v
      rw [hs] at hfr
      simp only [scanLoop, specScan, hfr, hs]
      rw [flushCand_eq_specFlush, ih (some s) (some e) []]
      rfl
    | none =>
      rw [hs] at hfr
      by_cases hsep : jsTrim l = ("---").data
      · simp only [scanLoop, specScan, hfr, hs, if_pos hsep]
        rw [flushCand_eq_specFlush, ih none none []]
        rfl
      · simp only [scanLoop, specScan, hfr, hs, if_neg hsep]
        cases cs with
        | none => cases ce with
          | none => simpa [modeOf] using ih none none cm
          | some e => simpa [modeOf] using ih none (some e) cm
        | some s => cases ce with
          | none => simpa [modeOf] using ih (some s) none cm
          | some e => simpa [modeOf] using ih (some s) (some e) (cm ++ l ++ ['\n'])

/-- C6 (corrected): on every model response, the line scan of `parseReview`
coincides with the two-state machine of the amended claim: a line accepted
by the suffix matcher `specRangeLine` (after removing trailing whitespace
the line ends in `start-end:` with the start digits preceded by whitespace
or the line start) flushes and opens a comment at the captured range, a
line whose whitespace-trimmed content is `---` flushes to idle, any other
line is appended with its newline only while collecting, and the end of
input flushes. -/
theorem C6_scan_machine (response : List Char) :
    scanLoop (splitOnNl (sanitizeResponse (jsTrim response))) none none [] =
      specScan (splitOnNl (sanitizeResponse (jsTrim response))) ScanMode.idle :=
  scanLoop_eq_specScan (splitOnNl (sanitizeResponse (jsTrim response))) none none []

/-- Counterexample to the original claim C6: the line `x 1-2:` neither
consists of optional leading whitespace followed by a decimal range and a
trailing colon, nor equals the separator, so the claim's machine
(`claimScan`) collects nothing from it — but the code's scan (`scanLoop`)
opens and flushes a comment at (1, 2), because the regex boundary
`(?:^|\s)` also matches a whitespace character in the middle of the line. -/
theorem C6_counterexample :
    scanLoop [("x 1-2:").data] none none [] = [(1, 2, [])] ∧
      claimScan [("x 1-2:").data] none none [] = [] := by
  constructor
  · decide
  · decide

end AiPr
